import Mathlib

/-!
# Verification of the `HFTBTree` B-tree core (`src/btree.cpp`)

Shallow embedding of the arena-allocated, fixed-fanout B-tree implemented by the
C++ template `HFTBTree<Key, Value, ORDER>`.  The embedding instantiates the
template at `Key = Value = Int` (any totally ordered key type works the same
way) and keeps `ORDER` as an explicit parameter `o`.

Modelling decisions, each traceable to the source:

* A C++ `Node` keeps parallel fixed arrays `keys[MAX_KEYS]`, `vals[MAX_KEYS]`,
  `child[MAX_CHILD]` of which only the slots below `keyCount` (respectively
  `keyCount + 1` child slots of an internal node) are ever read.  The embedding
  represents exactly this meaningful region: `entries` is the list of
  (key, value) pairs of length `keyCount`, `child` the list of meaningful
  children.  Truncating `keyCount` in the source (`fullNode->keyCount = mid`)
  becomes `List.take` on the embedded lists.
* The arena bump allocator hands out nodes by advancing a byte offset by
  `sizeof(Node)` per call and never checks capacity.  The embedding counts the
  offset in units of nodes (`arenaOffset` bytes in the source equal
  `arenaOffset * sizeof(Node)` here); allocation is total, exactly as in the
  source, which has no failure path.
* `insertNonFull` recurses along a root-to-leaf path.  The embedding passes a
  fuel argument that the top-level `insert` instantiates with `sizeOf` of the
  root, a bound that is proved sufficient (the C++ recursion terminates by the
  same descent).
-/

namespace HFTBTree

/-- `MAX_KEYS = ORDER * 2`, per node key capacity, as in the source. -/
def MAX_KEYS (o : Nat) : Nat := o * 2

/-- `MAX_CHILD = MAX_KEYS + 1`, per node child capacity, as in the source. -/
def MAX_CHILD (o : Nat) : Nat := MAX_KEYS o + 1

/-- A tree node: leaf flag, the meaningful `(key, value)` slots
(`keys[i]`/`vals[i]` for `i < keyCount`), and the meaningful child slots. -/
inductive Node : Type where
  | mk : Bool → List (Int × Int) → List Node → Node

/-- The `leaf` field. -/
def Node.leaf : Node → Bool
  | .mk lf _ _ => lf

/-- The meaningful `(key, value)` pairs: slots `[0, keyCount)` of `keys`/`vals`. -/
def Node.entries : Node → List (Int × Int)
  | .mk _ es _ => es

/-- The meaningful child slots. -/
def Node.child : Node → List Node
  | .mk _ _ ch => ch

/-- The meaningful prefix of the `keys` array. -/
def Node.keys (n : Node) : List Int := n.entries.map Prod.fst

/-- The meaningful prefix of the `vals` array. -/
def Node.vals (n : Node) : List Int := n.entries.map Prod.snd

/-- The `keyCount` field (number of meaningful slots). -/
def Node.keyCount (n : Node) : Nat := n.entries.length

/-- `full()`: `keyCount == MAX_KEYS`. -/
def Node.full (o : Nat) (n : Node) : Bool := n.keyCount == MAX_KEYS o

/-- A freshly constructed node `Node(true)`: empty, no children. -/
def emptyLeaf : Node := Node.mk true [] []

/-- The clean-up loop of `findPos`:
`for (; i < n; i++) if (node->keys[i] >= k) return i; return n;`. -/
def findPosRest (k : Int) : List Int → Nat
  | [] => 0
  | x :: xs => if x ≥ k then 0 else findPosRest k xs + 1

/-- The manually unrolled scan of `findPos`: blocks of four comparisons while
`i + 4 <= n`, then the clean-up loop on the remaining keys. -/
def findPosKeys (k : Int) : List Int → Nat
  | a :: b :: c :: d :: rest =>
      if a ≥ k then 0
      else if b ≥ k then 1
      else if c ≥ k then 2
      else if d ≥ k then 3
      else 4 + findPosKeys k rest
  | l => findPosRest k l

/-- `findPos(node, k)`: position of the first meaningful key `≥ k`, else
`keyCount`. -/
def findPos (n : Node) (k : Int) : Nat := findPosKeys k n.keys

mutual
/-- `search(k)`: descend from the node, returning `vals[pos]` on an exact key
match, `nullptr` (here `none`) when a leaf is reached without a match.
`searchChild` walks to the `pos`-th child slot (`cur = cur->child[pos]`); a
slot beyond the meaningful region is a null/garbage pointer in the source and
is modelled as "not found". -/
def Node.search (k : Int) : Node → Option Int
  | .mk lf es ch =>
    let pos := findPosKeys k (es.map Prod.fst)
    if pos < es.length ∧ (es.getD pos (0, 0)).1 = k then some (es.getD pos (0, 0)).2
    else if lf then none
    else searchChild k pos ch

/-- Select the `pos`-th child and continue the search there. -/
def searchChild (k : Int) : Nat → List Node → Option Int
  | _, [] => none
  | 0, c :: _ => Node.search k c
  | n + 1, _ :: cs => searchChild k n cs
end

mutual
/-- Number of nodes of a subtree; used (plus one) as recursion fuel for
`insertNonFull`, a bound on the root-to-leaf descent depth. -/
def Node.size : Node → Nat
  | .mk _ _ ch => 1 + sizeList ch

/-- Total node count of a list of subtrees. -/
def sizeList : List Node → Nat
  | [] => 0
  | c :: cs => Node.size c + sizeList cs
end

/-- The right-to-left shift loop of the leaf case of `insertNonFull`, acting on
the reversed entry list: keep shifting while `keys[i] > k`, then place
`(k, v)`. -/
def leafInsertRev (k v : Int) : List (Int × Int) → List (Int × Int)
  | [] => [(k, v)]
  | e :: rest => if e.1 > k then e :: leafInsertRev k v rest else (k, v) :: e :: rest

/-- Leaf insertion: the source shifts entries `keys[i] > k` one slot to the
right (scanning from index `keyCount - 1` downwards) and writes `(k, v)` into
the slot opened up. -/
def leafInsert (k v : Int) (es : List (Int × Int)) : List (Int × Int) :=
  (leafInsertRev k v es.reverse).reverse

/-- `allocNode(leaf)`: bump the arena offset and placement-new a `Node(leaf)`.
The offset counts allocated nodes (the source counts `sizeof(Node)` bytes per
node); there is no capacity check in the source. -/
def allocNode (arenaOffset : Nat) (lf : Bool) : Node × Nat :=
  (Node.mk lf [] [], arenaOffset + 1)

/-- `splitChild(parent, idx)`: split the full child `parent->child[idx]`.
The right block `[mid+1, MAX_KEYS)` of entries (and, for an internal child,
child slots `[mid+1, MAX_KEYS]`) moves to a freshly allocated sibling; the full
child's `keyCount` is truncated to `mid`; the parent's entries/children at and
after `idx` shift right by one slot, the promoted entry `fullNode` slot `mid`
lands in parent slot `idx` and the sibling in child slot `idx + 1`. -/
def splitChild (o : Nat) (parent : Node) (idx : Nat) (off : Nat) : Node × Nat :=
  match parent with
  | .mk lf es ch =>
    let fullNode := ch.getD idx emptyLeaf
    let a := allocNode off fullNode.leaf
    let mid := MAX_KEYS o / 2
    let newNode := Node.mk a.1.leaf (fullNode.entries.drop (mid + 1))
        (if fullNode.leaf then a.1.child else fullNode.child.drop (mid + 1))
    let leftNode := Node.mk fullNode.leaf (fullNode.entries.take mid)
        (if fullNode.leaf then fullNode.child else fullNode.child.take (mid + 1))
    (Node.mk lf (es.take idx ++ fullNode.entries.getD mid (0, 0) :: es.drop idx)
        (ch.take idx ++ leftNode :: newNode :: ch.drop (idx + 1)), a.2)

/-- `insertNonFull(node, k, v)`: leaf nodes take the shifted insertion; internal
nodes locate the descent slot with `findPos`, split a full child first (moving
one slot right when the promoted key is `< k`), then recurse into the child.
`fuel` bounds the recursion depth; `insert` supplies a sufficient bound. -/
def insertNonFull (o : Nat) : Nat → Node → Int → Int → Nat → Node × Nat
  | 0, n, _, _, off => (n, off)
  | fuel + 1, .mk lf es ch, k, v, off =>
    if lf then
      (Node.mk lf (leafInsert k v es) ch, off)
    else
      let pos := findPosKeys k (es.map Prod.fst)
      if (ch.getD pos emptyLeaf).full o then
        let s := splitChild o (Node.mk lf es ch) pos off
        let pos' := if s.1.keys.getD pos 0 < k then pos + 1 else pos
        let r := insertNonFull o fuel (s.1.child.getD pos' emptyLeaf) k v s.2
        (Node.mk s.1.leaf s.1.entries (s.1.child.set pos' r.1), r.2)
      else
        let r := insertNonFull o fuel (ch.getD pos emptyLeaf) k v off
        (Node.mk lf es (ch.set pos r.1), r.2)

/-- The tree object: the root pointer and the arena state (offset counted in
nodes). -/
structure Tree where
  root : Node
  arenaOffset : Nat

/-- The `HFTBTree()` constructor: fresh arena (offset 0), root = `allocNode(true)`. -/
def mkTree : Tree :=
  let a := allocNode 0 true
  ⟨a.1, a.2⟩

/-- `insert(k, v)`: when the root is full, allocate a new root `s` over the old
root, split child 0 of `s`, and continue with `insertNonFull` on `s`; otherwise
`insertNonFull` on the root directly. -/
def insert (o : Nat) (t : Tree) (k v : Int) : Tree :=
  if t.root.full o then
    let a := allocNode t.arenaOffset false
    let s := Node.mk a.1.leaf a.1.entries [t.root]
    let b := splitChild o s 0 a.2
    let c := insertNonFull o (t.root.size + 1) b.1 k v b.2
    ⟨c.1, c.2⟩
  else
    let c := insertNonFull o (t.root.size + 1) t.root k v t.arenaOffset
    ⟨c.1, c.2⟩

/-- Fold a sequence of insertions over a tree. -/
def insertList (o : Nat) (t : Tree) (l : List (Int × Int)) : Tree :=
  l.foldl (fun s kv => insert o s kv.1 kv.2) t

mutual
/-- The `search` loop again, this time threading the whole tree state through
every iteration so that the state after the call can be compared with the state
before it: the loop body only ever reads `cur`'s fields. -/
def searchLoopGo (k : Int) (t : Tree) : Node → Option Int × Tree
  | .mk lf es ch =>
    let pos := findPosKeys k (es.map Prod.fst)
    if pos < es.length ∧ (es.getD pos (0, 0)).1 = k then (some (es.getD pos (0, 0)).2, t)
    else if lf then (none, t)
    else searchLoopChild k t pos ch

/-- Move the cursor to the `pos`-th child, carrying the tree state along. -/
def searchLoopChild (k : Int) (t : Tree) : Nat → List Node → Option Int × Tree
  | _, [] => (none, t)
  | 0, c :: _ => searchLoopGo k t c
  | n + 1, _ :: cs => searchLoopChild k t n cs
end

/-- The public `search(k)` operation on a tree: start the loop at `root`. -/
def Tree.search (t : Tree) (k : Int) : Option Int × Tree :=
  searchLoopGo k t t.root

/-! ## Specification-side notions (heights, contents, invariants) -/

mutual
/-- Height of a node: leaves (nodes without meaningful children) have height 0. -/
def Node.height : Node → Nat
  | .mk _ _ ch => heightAux ch

/-- `heightAux ch` is `1 +` the maximal height among `ch` (0 when empty). -/
def heightAux : List Node → Nat
  | [] => 0
  | c :: cs => max (Node.height c + 1) (heightAux cs)
end

mutual
/-- The multiset of all `(key, value)` entries stored in a subtree. -/
def Node.entMS : Node → Multiset (Int × Int)
  | .mk _ es ch => (es : Multiset (Int × Int)) + entMSL ch

/-- Entries of a list of subtrees. -/
def entMSL : List Node → Multiset (Int × Int)
  | [] => 0
  | c :: cs => Node.entMS c + entMSL cs
end

mutual
/-- All keys stored in a subtree (with multiplicity, in traversal order). -/
def Node.keysAll : Node → List Int
  | .mk _ es ch => es.map Prod.fst ++ keysAllL ch

/-- Keys of a list of subtrees. -/
def keysAllL : List Node → List Int
  | [] => []
  | c :: cs => Node.keysAll c ++ keysAllL cs
end

mutual
/-- Depths (distances from the given node) of all leaves of a subtree. -/
def Node.leafDepths : Node → List Nat
  | .mk true _ _ => [0]
  | .mk false _ ch => leafDepthsL ch

/-- Leaf depths of a list of subtrees, as seen from their common parent. -/
def leafDepthsL : List Node → List Nat
  | [] => []
  | c :: cs => (Node.leafDepths c).map (· + 1) ++ leafDepthsL cs
end

/-- `x` respects an optional (inclusive) lower bound. -/
def okLo (lo : Option Int) (x : Int) : Prop :=
  ∀ a ∈ lo, a ≤ x

/-- `x` respects an optional (inclusive) upper bound. -/
def okHi (hi : Option Int) (x : Int) : Prop :=
  ∀ a ∈ hi, x ≤ a

mutual
/-- Well-formedness of a node, with optional inclusive bounds `lo`/`hi` on every
key of the subtree: the occupied region fits in `MAX_KEYS`, the keys are sorted
non-decreasingly and within bounds, a leaf has no meaningful children, and an
internal node has `keyCount + 1` children chained between consecutive keys. -/
inductive WF (o : Nat) : Option Int → Option Int → Node → Prop
  | leaf (lo hi : Option Int) (es : List (Int × Int)) :
      es.length ≤ MAX_KEYS o →
      (es.map Prod.fst).Pairwise (· ≤ ·) →
      (∀ x ∈ es.map Prod.fst, okLo lo x ∧ okHi hi x) →
      WF o lo hi (.mk true es [])
  | node (lo hi : Option Int) (es : List (Int × Int)) (ch : List Node) :
      es.length ≤ MAX_KEYS o →
      (es.map Prod.fst).Pairwise (· ≤ ·) →
      (∀ x ∈ es.map Prod.fst, okLo lo x ∧ okHi hi x) →
      WFC o lo hi (es.map Prod.fst) ch →
      WF o lo hi (.mk false es ch)

/-- The children of an internal node, chained between its keys: with keys
`k₁ … kₙ` the `i`-th child is well-formed for the bounds `(k_i, k_{i+1})`
(outermost bounds `lo`/`hi` at the ends). -/
inductive WFC (o : Nat) : Option Int → Option Int → List Int → List Node → Prop
  | single (lo hi : Option Int) (c : Node) :
      WF o lo hi c → WFC o lo hi [] [c]
  | cons (lo hi : Option Int) (k : Int) (ks : List Int) (c : Node) (cs : List Node) :
      WF o lo (some k) c → WFC o (some k) hi ks cs → WFC o lo hi (k :: ks) (c :: cs)
end

/-- Balance: every child subtree is balanced and all children have equal
height (hence all leaves of the subtree are at the same depth). -/
inductive Bal : Node → Prop
  | intro (lf : Bool) (es : List (Int × Int)) (ch : List Node) :
      (∀ c ∈ ch, Bal c) →
      (∀ c ∈ ch, ∀ d ∈ ch, Node.height c = Node.height d) →
      Bal (.mk lf es ch)

mutual
/-- The occupancy bound of claim C3, as a predicate over all reachable nodes:
every node's `keyCount` is at most `MAX_KEYS`. -/
def Node.countsOK (o : Nat) : Node → Prop
  | .mk _ es ch => es.length ≤ MAX_KEYS o ∧ countsOKL o ch

/-- Occupancy bound for a list of subtrees. -/
def countsOKL (o : Nat) : List Node → Prop
  | [] => True
  | c :: cs => Node.countsOK o c ∧ countsOKL o cs
end

mutual
/-- The ordering invariant of claim C7, over all reachable nodes: the meaningful
keys are non-decreasing, every key in the subtree rooted at `child[i]` is
`≤ keys[i]`, and every key in the subtree rooted at `child[i+1]` is `≥ keys[i]`. -/
def Node.ordOK : Node → Prop
  | .mk _ es ch =>
    (es.map Prod.fst).Pairwise (· ≤ ·) ∧
    (∀ i, i < es.length →
      (∀ x ∈ (ch.getD i emptyLeaf).keysAll, x ≤ (es.map Prod.fst).getD i 0) ∧
      (∀ x ∈ (ch.getD (i + 1) emptyLeaf).keysAll, (es.map Prod.fst).getD i 0 ≤ x)) ∧
    ordOKL ch

/-- Ordering invariant for a list of subtrees. -/
def ordOKL : List Node → Prop
  | [] => True
  | c :: cs => Node.ordOK c ∧ ordOKL cs
end

/-! ## Basic lemmas about the embedding -/

@[simp] theorem Node.leaf_mk (lf : Bool) (es : List (Int × Int)) (ch : List Node) :
    (Node.mk lf es ch).leaf = lf := rfl

@[simp] theorem Node.entries_mk (lf : Bool) (es : List (Int × Int)) (ch : List Node) :
    (Node.mk lf es ch).entries = es := rfl

@[simp] theorem Node.child_mk (lf : Bool) (es : List (Int × Int)) (ch : List Node) :
    (Node.mk lf es ch).child = ch := rfl

@[simp] theorem Node.keys_mk (lf : Bool) (es : List (Int × Int)) (ch : List Node) :
    (Node.mk lf es ch).keys = es.map Prod.fst := rfl

@[simp] theorem Node.vals_mk (lf : Bool) (es : List (Int × Int)) (ch : List Node) :
    (Node.mk lf es ch).vals = es.map Prod.snd := rfl

@[simp] theorem Node.keyCount_mk (lf : Bool) (es : List (Int × Int)) (ch : List Node) :
    (Node.mk lf es ch).keyCount = es.length := rfl

theorem Node.full_iff (o : Nat) (n : Node) :
    n.full o = true ↔ n.keyCount = MAX_KEYS o := by
  simp [Node.full]

/-- Custom induction principle for the nested inductive `Node`. -/
theorem Node.ind (P : Node → Prop)
    (h : ∀ lf es ch, (∀ c ∈ ch, P c) → P (Node.mk lf es ch)) : ∀ t, P t
  | .mk lf es ch => h lf es ch (fun c hc => Node.ind P h c)
termination_by t => sizeOf t
decreasing_by
  have h1 := List.sizeOf_lt_of_mem hc
  simp only [Node.mk.sizeOf_spec]
  omega

/-! ### `findPos` -/

theorem findPosRest_le (k : Int) : ∀ ks : List Int, findPosRest k ks ≤ ks.length
  | [] => by simp [findPosRest]
  | x :: xs => by
    have h := findPosRest_le k xs
    simp only [findPosRest, List.length_cons]
    split <;> omega

theorem findPosRest_early (k : Int) :
    ∀ ks : List Int, ∀ j, j < findPosRest k ks → ks.getD j 0 < k
  | [], j => by simp [findPosRest]
  | x :: xs, j => by
    simp only [findPosRest]
    by_cases hx : x ≥ k
    · simp [hx]
    · simp only [if_neg hx]
      intro hj
      match j with
      | 0 => simp only [List.getD_cons_zero]; omega
      | j + 1 =>
        simp only [List.getD_cons_succ]
        exact findPosRest_early k xs j (by omega)

theorem findPosRest_found (k : Int) :
    ∀ ks : List Int, findPosRest k ks < ks.length → k ≤ ks.getD (findPosRest k ks) 0
  | [], h => by simp [findPosRest] at h
  | x :: xs, h => by
    by_cases hx : x ≥ k
    · simp only [findPosRest, if_pos hx, List.getD_cons_zero]
      exact hx
    · simp only [findPosRest, if_neg hx, List.length_cons] at h ⊢
      simp only [List.getD_cons_succ]
      exact findPosRest_found k xs (by omega)

/-- The unrolled scan computes the same index as the plain linear scan. -/
theorem findPosKeys_eq_rest (k : Int) : ∀ ks : List Int, findPosKeys k ks = findPosRest k ks
  | [] => rfl
  | [_] => rfl
  | [_, _] => rfl
  | [_, _, _] => rfl
  | a :: b :: c :: d :: rest => by
    have ih := findPosKeys_eq_rest k rest
    simp only [findPosKeys, findPosRest, ih]
    split_ifs <;> omega

theorem findPosKeys_le (k : Int) (ks : List Int) : findPosKeys k ks ≤ ks.length := by
  rw [findPosKeys_eq_rest]; exact findPosRest_le k ks

theorem findPosKeys_early (k : Int) (ks : List Int) (j : Nat) (hj : j < findPosKeys k ks) :
    ks.getD j 0 < k := by
  rw [findPosKeys_eq_rest] at hj; exact findPosRest_early k ks j hj

theorem findPosKeys_found (k : Int) (ks : List Int) (h : findPosKeys k ks < ks.length) :
    k ≤ ks.getD (findPosKeys k ks) 0 := by
  rw [findPosKeys_eq_rest] at h ⊢; exact findPosRest_found k ks h

/-! ### The leaf insertion loop -/

theorem leafInsertRev_perm (k v : Int) :
    ∀ l : List (Int × Int), List.Perm (leafInsertRev k v l) ((k, v) :: l)
  | [] => List.Perm.refl _
  | e :: rest => by
    simp only [leafInsertRev]
    split
    · exact ((leafInsertRev_perm k v rest).cons e).trans (List.Perm.swap (k, v) e rest)
    · exact List.Perm.refl _

theorem leafInsert_perm (k v : Int) (es : List (Int × Int)) :
    List.Perm (leafInsert k v es) ((k, v) :: es) := by
  unfold leafInsert
  exact ((leafInsertRev k v es.reverse).reverse_perm.trans
    (leafInsertRev_perm k v es.reverse)).trans ((es.reverse_perm).cons (k, v))

theorem leafInsert_length (k v : Int) (es : List (Int × Int)) :
    (leafInsert k v es).length = es.length + 1 :=
  (leafInsert_perm k v es).length_eq

/-- Structure of the shift loop: it splits the reversed list into the maximal
block of entries with key `> k` (shifted) and the rest, and puts `(k, v)` in
between. -/
theorem leafInsertRev_split (k v : Int) :
    ∀ l : List (Int × Int), ∃ l1 l2, l = l1 ++ l2 ∧
      leafInsertRev k v l = l1 ++ (k, v) :: l2 ∧ (∀ e ∈ l1, k < e.1) ∧
      (∀ e l2', l2 = e :: l2' → e.1 ≤ k)
  | [] => ⟨[], [], rfl, rfl, by simp, by simp⟩
  | e :: rest => by
    by_cases h : e.1 > k
    · obtain ⟨l1, l2, h1, h2, h3, h4⟩ := leafInsertRev_split k v rest
      refine ⟨e :: l1, l2, by simp [h1], ?_, ?_, h4⟩
      · simp [leafInsertRev, h, h2]
      · intro e' he'
        rcases List.mem_cons.mp he' with h' | h'
        · subst h'; exact h
        · exact h3 e' h'
    · exact ⟨[], e :: rest, rfl, by simp [leafInsertRev, h], by simp,
        by intro e' l2' he; cases he; omega⟩

/-- The shift loop keeps the meaningful keys sorted. -/
theorem leafInsert_sorted (k v : Int) (es : List (Int × Int))
    (hs : (es.map Prod.fst).Pairwise (· ≤ ·)) :
    ((leafInsert k v es).map Prod.fst).Pairwise (· ≤ ·) := by
  obtain ⟨l1, l2, h1, h2, h3, h4⟩ := leafInsertRev_split k v es.reverse
  have hes : es = l2.reverse ++ l1.reverse := by
    have h := congrArg List.reverse h1
    simpa [List.reverse_append] using h
  have hres : leafInsert k v es = l2.reverse ++ (k, v) :: l1.reverse := by
    unfold leafInsert
    rw [h2]
    simp [List.reverse_append]
  rw [hres]
  rw [hes] at hs
  simp only [List.map_append, List.map_cons] at hs ⊢
  rw [List.pairwise_append] at hs
  obtain ⟨hA, hB, hC⟩ := hs
  rw [List.pairwise_append]
  refine ⟨hA, ?_, ?_⟩
  · rw [List.pairwise_cons]
    refine ⟨?_, hB⟩
    intro b hb
    obtain ⟨e, he, rfl⟩ := List.mem_map.mp hb
    exact le_of_lt (h3 e (by simpa using he))
  · intro a ha b hb
    rcases List.mem_cons.mp hb with hbk | hb'
    · subst hbk
      rcases l2 with _ | ⟨e, l2'⟩
      · simp at ha
      · have hek : e.1 ≤ b := h4 e l2' rfl
        have ha' : a ∈ (l2'.reverse.map Prod.fst) ++ [e.1] := by
          simpa [List.reverse_cons, List.map_append] using ha
        have hA' : ((l2'.reverse.map Prod.fst) ++ [e.1]).Pairwise (· ≤ ·) := by
          simpa [List.reverse_cons, List.map_append] using hA
        rcases List.mem_append.mp ha' with h' | h'
        · rw [List.pairwise_append] at hA'
          exact le_trans (hA'.2.2 a h' e.1 (by simp)) hek
        · simp only [List.mem_singleton] at h'
          subst h'; exact hek
    · exact hC a ha b hb'

/-! ### Heights and sizes -/

theorem Node.height_mk (lf : Bool) (es : List (Int × Int)) (ch : List Node) :
    (Node.mk lf es ch).height = heightAux ch := rfl

theorem heightAux_append : ∀ l1 l2 : List Node,
    heightAux (l1 ++ l2) = max (heightAux l1) (heightAux l2)
  | [], l2 => by simp [heightAux]
  | c :: cs, l2 => by
    simp only [List.cons_append, heightAux, List.append_eq, heightAux_append cs l2]
    omega

theorem heightAux_ge_of_mem : ∀ (ch : List Node), ∀ c ∈ ch, Node.height c + 1 ≤ heightAux ch
  | c :: cs, d, hd => by
    rcases List.mem_cons.mp hd with rfl | hd'
    · simp only [heightAux]; omega
    · have := heightAux_ge_of_mem cs d hd'
      simp only [heightAux]; omega

mutual
theorem Node.height_lt_size : ∀ n : Node, n.height < n.size
  | .mk _ _ ch => by
    have h := heightAux_le_sizeList ch
    simp only [Node.height, Node.size]
    omega

theorem heightAux_le_sizeList : ∀ ch : List Node, heightAux ch ≤ sizeList ch
  | [] => by simp [heightAux, sizeList]
  | c :: cs => by
    have h1 := Node.height_lt_size c
    have h2 := heightAux_le_sizeList cs
    simp only [heightAux, sizeList]
    omega
end

/-! ### Entry multisets and subtree keys -/

theorem Node.entMS_mk (lf : Bool) (es : List (Int × Int)) (ch : List Node) :
    (Node.mk lf es ch).entMS = (es : Multiset (Int × Int)) + entMSL ch := rfl

theorem entMSL_nil : entMSL [] = 0 := rfl

theorem entMSL_cons (c : Node) (cs : List Node) :
    entMSL (c :: cs) = c.entMS + entMSL cs := rfl

theorem entMSL_append : ∀ l1 l2 : List Node, entMSL (l1 ++ l2) = entMSL l1 + entMSL l2
  | [], l2 => by simp [entMSL]
  | c :: cs, l2 => by
    simp only [List.cons_append, entMSL, List.append_eq, entMSL_append cs l2]
    rw [add_assoc]

theorem mem_entMSL {x : Int × Int} : ∀ {ch : List Node},
    x ∈ entMSL ch ↔ ∃ c ∈ ch, x ∈ Node.entMS c := by
  intro ch
  induction ch with
  | nil => simp [entMSL]
  | cons c cs ih => simp [entMSL_cons, Multiset.mem_add, ih]

theorem Node.keysAll_mk (lf : Bool) (es : List (Int × Int)) (ch : List Node) :
    (Node.mk lf es ch).keysAll = es.map Prod.fst ++ keysAllL ch := rfl

mutual
theorem Node.keysAll_coe : ∀ n : Node,
    (Node.keysAll n : Multiset Int) = Multiset.map Prod.fst n.entMS
  | .mk lf es ch => by
    have h := keysAllL_coe ch
    simp only [Node.keysAll, Node.entMS]
    rw [← Multiset.coe_add, Multiset.map_add, h]
    simp

theorem keysAllL_coe : ∀ ch : List Node,
    (keysAllL ch : Multiset Int) = Multiset.map Prod.fst (entMSL ch)
  | [] => by simp [keysAllL, entMSL]
  | c :: cs => by
    have h1 := Node.keysAll_coe c
    have h2 := keysAllL_coe cs
    simp only [keysAllL, entMSL]
    rw [← Multiset.coe_add, Multiset.map_add, h1, h2]
end

theorem mem_keysAll_iff {x : Int} {n : Node} :
    x ∈ n.keysAll ↔ ∃ v, (x, v) ∈ n.entMS := by
  have h : x ∈ (Node.keysAll n : Multiset Int) ↔ x ∈ Multiset.map Prod.fst n.entMS := by
    rw [Node.keysAll_coe]
  simp only [Multiset.mem_coe, Multiset.mem_map] at h
  constructor
  · intro hx
    obtain ⟨e, he, hfst⟩ := h.mp hx
    exact ⟨e.2, by rwa [show (x, e.2) = e from by rw [← hfst]]⟩
  · intro ⟨v, hv⟩
    exact h.mpr ⟨(x, v), hv, rfl⟩

/-! ### Search helpers -/

theorem searchChild_eq (k : Int) : ∀ (pos : Nat) (ch : List Node), pos < ch.length →
    searchChild k pos ch = Node.search k (ch.getD pos emptyLeaf)
  | _, [], h => by simp at h
  | 0, c :: cs, _ => by simp [searchChild]
  | pos + 1, c :: cs, h => by
    simp only [searchChild, List.getD_cons_succ]
    exact searchChild_eq k pos cs (by simp at h; omega)

theorem Node.search_eq (k : Int) (lf : Bool) (es : List (Int × Int)) (ch : List Node) :
    Node.search k (.mk lf es ch) =
      if findPosKeys k (es.map Prod.fst) < es.length ∧
          (es.getD (findPosKeys k (es.map Prod.fst)) (0, 0)).1 = k then
        some (es.getD (findPosKeys k (es.map Prod.fst)) (0, 0)).2
      else if lf then none
      else searchChild k (findPosKeys k (es.map Prod.fst)) ch := by
  rw [Node.search]

/-! ### List helpers -/

theorem list_set_decomp {α : Type} : ∀ (l : List α) (i : Nat) (a : α), i < l.length →
    l.set i a = l.take i ++ a :: l.drop (i + 1)
  | _ :: _, 0, a, _ => by simp
  | x :: xs, i + 1, a, h => by
    simp only [List.set_cons_succ, List.take_succ_cons, List.drop_succ_cons, List.cons_append]
    rw [list_set_decomp xs i a (by simpa using Nat.lt_of_succ_lt_succ h)]

theorem list_getD_decomp {α : Type} : ∀ (l : List α) (i : Nat) (d : α), i < l.length →
    l = l.take i ++ l.getD i d :: l.drop (i + 1)
  | x :: xs, 0, d, _ => by simp
  | x :: xs, i + 1, d, h => by
    simp only [List.take_succ_cons, List.drop_succ_cons, List.getD_cons_succ, List.cons_append]
    rw [← list_getD_decomp xs i d (by simpa using Nat.lt_of_succ_lt_succ h)]

/-! ### Bound predicates -/

theorem okLo_none (x : Int) : okLo none x := by simp [okLo]

theorem okHi_none (x : Int) : okHi none x := by simp [okHi]

theorem okLo_some {a x : Int} : okLo (some a) x ↔ a ≤ x := by simp [okLo]

theorem okHi_some {a x : Int} : okHi (some a) x ↔ x ≤ a := by simp [okHi]

theorem okLo_mono {lo : Option Int} {x y : Int} (h : okLo lo x) (hxy : x ≤ y) : okLo lo y :=
  fun a ha => le_trans (h a ha) hxy

theorem okHi_mono {hi : Option Int} {x y : Int} (h : okHi hi y) (hxy : x ≤ y) : okHi hi x :=
  fun a ha => le_trans hxy (h a ha)

/-! ### Structural consequences of well-formedness -/

theorem WF.len_le {o : Nat} {lo hi : Option Int} {lf : Bool} {es : List (Int × Int)}
    {ch : List Node} (h : WF o lo hi (.mk lf es ch)) : es.length ≤ MAX_KEYS o := by
  cases h with
  | leaf _ _ _ h1 _ _ => exact h1
  | node _ _ _ _ h1 _ _ _ => exact h1

theorem WF.sorted {o : Nat} {lo hi : Option Int} {lf : Bool} {es : List (Int × Int)}
    {ch : List Node} (h : WF o lo hi (.mk lf es ch)) :
    (es.map Prod.fst).Pairwise (· ≤ ·) := by
  cases h with
  | leaf _ _ _ _ h2 _ => exact h2
  | node _ _ _ _ _ h2 _ _ => exact h2

theorem WF.key_bounds {o : Nat} {lo hi : Option Int} {lf : Bool} {es : List (Int × Int)}
    {ch : List Node} (h : WF o lo hi (.mk lf es ch)) :
    ∀ x ∈ es.map Prod.fst, okLo lo x ∧ okHi hi x := by
  cases h with
  | leaf _ _ _ _ _ h3 => exact h3
  | node _ _ _ _ _ _ h3 _ => exact h3

theorem WF.leaf_no_child {o : Nat} {lo hi : Option Int} {es : List (Int × Int)}
    {ch : List Node} (h : WF o lo hi (.mk true es ch)) : ch = [] := by
  cases h; rfl

theorem WF.internal_wfc {o : Nat} {lo hi : Option Int} {es : List (Int × Int)}
    {ch : List Node} (h : WF o lo hi (.mk false es ch)) :
    WFC o lo hi (es.map Prod.fst) ch := by
  cases h; assumption

theorem WFC.length : ∀ {o : Nat} {lo hi : Option Int} {ks : List Int} {ch : List Node},
    WFC o lo hi ks ch → ch.length = ks.length + 1
  | _, _, _, _, _, .single _ _ _ _ => rfl
  | _, _, _, _, _, .cons _ _ _ _ _ _ _ hc => by
    simpa [List.length_cons] using WFC.length hc

/-- Lower bound applying to the `i`-th child of a node with keys `ks` and outer
lower bound `lo`. -/
def bLo (lo : Option Int) (ks : List Int) (i : Nat) : Option Int :=
  if i = 0 then lo else some (ks.getD (i - 1) 0)

/-- Upper bound applying to the `i`-th child of a node with keys `ks` and outer
upper bound `hi`. -/
def bHi (hi : Option Int) (ks : List Int) (i : Nat) : Option Int :=
  if i = ks.length then hi else some (ks.getD i 0)

theorem WFC.getD : ∀ {o : Nat} {lo hi : Option Int} {ks : List Int} {ch : List Node},
    WFC o lo hi ks ch → ∀ i, i ≤ ks.length →
    WF o (bLo lo ks i) (bHi hi ks i) (ch.getD i emptyLeaf)
  | _, _, _, _, _, .single _ _ _ hwf, 0, _ => by simpa [bLo, bHi] using hwf
  | _, _, _, _, _, .cons _ _ k ks c cs hwf _, 0, _ => by
    simpa [bLo, bHi] using hwf
  | _, _, _, _, _, .cons lo hi k ks c cs _ hc, i + 1, hle => by
    have h := WFC.getD hc i (by simpa using Nat.le_of_succ_le_succ hle)
    have hbl : bLo (some k) ks i = bLo lo (k :: ks) (i + 1) := by
      cases i with
      | zero => simp [bLo]
      | succ j => simp [bLo]
    have hbh : bHi hi ks i = bHi hi (k :: ks) (i + 1) := by
      by_cases hik : i = ks.length <;> simp [bHi, hik]
    rw [hbl, hbh] at h
    simpa using h

theorem WFC.set : ∀ {o : Nat} {lo hi : Option Int} {ks : List Int} {ch : List Node},
    WFC o lo hi ks ch → ∀ i, i ≤ ks.length → ∀ {c' : Node},
    WF o (bLo lo ks i) (bHi hi ks i) c' → WFC o lo hi ks (ch.set i c')
  | _, _, _, _, _, .single lo hi c _, 0, _, c', hwf' => by
    exact .single lo hi c' (by simpa [bLo, bHi] using hwf')
  | _, _, _, _, _, .cons lo hi k ks c cs _ hc, 0, _, c', hwf' => by
    exact .cons lo hi k ks c' cs (by simpa [bLo, bHi] using hwf') hc
  | o, _, _, _, _, .cons lo hi k ks c cs hwf hc, i + 1, hle, c', hwf' => by
    have hbl : bLo (some k) ks i = bLo lo (k :: ks) (i + 1) := by
      cases i with
      | zero => simp [bLo]
      | succ j => simp [bLo]
    have hbh : bHi hi ks i = bHi hi (k :: ks) (i + 1) := by
      by_cases hik : i = ks.length <;> simp [bHi, hik]
    have hwf2 : WF o (bLo (some k) ks i) (bHi hi ks i) c' := by
      rw [hbl, hbh]; exact hwf'
    have h := WFC.set hc i (by simpa using Nat.le_of_succ_le_succ hle) hwf2
    exact .cons lo hi k ks c _ hwf h

theorem WFC.take : ∀ {o : Nat} {lo hi : Option Int} {ks : List Int} {ch : List Node},
    WFC o lo hi ks ch → ∀ n, n < ks.length →
    WFC o lo (some (ks.getD n 0)) (ks.take n) (ch.take (n + 1))
  | _, _, _, _, _, .cons lo hi k ks c cs hwf _, 0, _ => by
    simpa using WFC.single lo (some k) c hwf
  | _, _, _, _, _, .cons lo hi k ks c cs hwf hc, n + 1, hlt => by
    have h := WFC.take hc n (by simpa using Nat.lt_of_succ_lt_succ hlt)
    simpa using WFC.cons lo (some (ks.getD n 0)) k (ks.take n) c (cs.take (n + 1)) hwf h

theorem WFC.drop : ∀ {o : Nat} {lo hi : Option Int} {ks : List Int} {ch : List Node},
    WFC o lo hi ks ch → ∀ n, n < ks.length →
    WFC o (some (ks.getD n 0)) hi (ks.drop (n + 1)) (ch.drop (n + 1))
  | _, _, _, _, _, .cons lo hi k ks c cs _ hc, 0, _ => by simpa using hc
  | _, _, _, _, _, .cons lo hi k ks c cs _ hc, n + 1, hlt => by
    have h := WFC.drop hc n (by simpa using Nat.lt_of_succ_lt_succ hlt)
    simpa using h

/-! ### All subtree keys lie within the node's bounds -/

mutual
theorem WF.keysAll_bounds : ∀ {o : Nat} {lo hi : Option Int} {t : Node},
    WF o lo hi t → ∀ x ∈ t.keysAll, okLo lo x ∧ okHi hi x
  | _, _, _, _, .leaf lo hi es _ _ h3, x, hx => by
    simp only [Node.keysAll, keysAllL, List.append_nil] at hx
    exact h3 x hx
  | _, _, _, _, .node lo hi es ch _ h2 h3 h4, x, hx => by
    simp only [Node.keysAll, List.mem_append] at hx
    rcases hx with hx | hx
    · exact h3 x hx
    · exact WFC.keysAllL_bounds h4 h2 h3 x hx

theorem WFC.keysAllL_bounds : ∀ {o : Nat} {lo hi : Option Int} {ks : List Int} {ch : List Node},
    WFC o lo hi ks ch → ks.Pairwise (· ≤ ·) → (∀ y ∈ ks, okLo lo y ∧ okHi hi y) →
    ∀ x ∈ keysAllL ch, okLo lo x ∧ okHi hi x
  | _, _, _, _, _, .single _ _ c hwf, _, _, x, hx => by
    simp only [keysAllL, List.append_nil] at hx
    exact WF.keysAll_bounds hwf x hx
  | _, _, _, _, _, .cons lo hi k ks c cs hwf hc, hsort, hbd, x, hx => by
    simp only [keysAllL, List.mem_append] at hx
    rcases hx with hx | hx
    · obtain ⟨hxlo, hxk⟩ := WF.keysAll_bounds hwf x hx
      refine ⟨hxlo, okHi_mono (hbd k (by simp)).2 (okHi_some.mp hxk)⟩
    · have hsort' := (List.pairwise_cons.mp hsort)
      have h := WFC.keysAllL_bounds hc hsort'.2
        (fun y hy => ⟨okLo_some.mpr (hsort'.1 y hy), (hbd y (by simp [hy])).2⟩) x hx
      exact ⟨okLo_mono (hbd k (by simp)).1 (okLo_some.mp h.1), h.2⟩
end

theorem WF.entMS_key_bounds {o : Nat} {lo hi : Option Int} {t : Node}
    (h : WF o lo hi t) {x : Int} {v : Int} (hx : (x, v) ∈ t.entMS) :
    okLo lo x ∧ okHi hi x :=
  WF.keysAll_bounds h x (mem_keysAll_iff.mpr ⟨v, hx⟩)

/-! ### The split operation -/

theorem MAX_KEYS_div2 (o : Nat) : MAX_KEYS o / 2 = o := by
  unfold MAX_KEYS; omega

/-- Unfolding `splitChild` on a destructured parent. -/
theorem splitChild_mk (o : Nat) (lf : Bool) (es : List (Int × Int)) (ch : List Node)
    (idx off : Nat) :
    splitChild o (Node.mk lf es ch) idx off =
      (Node.mk lf
        (es.take idx ++
          (ch.getD idx emptyLeaf).entries.getD (MAX_KEYS o / 2) (0, 0) :: es.drop idx)
        (ch.take idx ++
          Node.mk (ch.getD idx emptyLeaf).leaf
            ((ch.getD idx emptyLeaf).entries.take (MAX_KEYS o / 2))
            (if (ch.getD idx emptyLeaf).leaf then (ch.getD idx emptyLeaf).child
             else (ch.getD idx emptyLeaf).child.take (MAX_KEYS o / 2 + 1)) ::
          Node.mk (ch.getD idx emptyLeaf).leaf
            ((ch.getD idx emptyLeaf).entries.drop (MAX_KEYS o / 2 + 1))
            (if (ch.getD idx emptyLeaf).leaf then []
             else (ch.getD idx emptyLeaf).child.drop (MAX_KEYS o / 2 + 1)) ::
          ch.drop (idx + 1)),
       off + 1) := rfl

theorem getD_fst (es : List (Int × Int)) (i : Nat) (h : i < es.length) :
    (es.getD i (0, 0)).1 = (es.map Prod.fst).getD i 0 := by
  rw [List.getD_eq_getElem _ _ h, List.getD_eq_getElem _ _ (by simpa using h)]
  simp

theorem sorted_getD_le {ks : List Int} (hs : ks.Pairwise (· ≤ ·)) {i j : Nat}
    (hij : i ≤ j) (hj : j < ks.length) : ks.getD i 0 ≤ ks.getD j 0 := by
  rcases Nat.eq_or_lt_of_le hij with rfl | hlt
  · exact le_refl _
  · rw [List.getD_eq_getElem _ _ (by omega), List.getD_eq_getElem _ _ hj]
    exact (List.pairwise_iff_getElem.mp hs) i j (by omega) hj hlt

theorem mem_take_le_getD {ks : List Int} (hs : ks.Pairwise (· ≤ ·)) {n : Nat}
    (hn : n < ks.length) : ∀ x ∈ ks.take n, x ≤ ks.getD n 0 := by
  intro x hx
  obtain ⟨i, hi, rfl⟩ := List.mem_iff_getElem.mp hx
  rw [List.getElem_take]
  have hin : i < n := by simp at hi; omega
  rw [List.getD_eq_getElem _ _ hn]
  exact (List.pairwise_iff_getElem.mp hs) i n (by omega) hn hin

theorem mem_drop_getD_le {ks : List Int} (hs : ks.Pairwise (· ≤ ·)) {n : Nat}
    (hn : n < ks.length) : ∀ x ∈ ks.drop (n + 1), ks.getD n 0 ≤ x := by
  intro x hx
  obtain ⟨i, hi, rfl⟩ := List.mem_iff_getElem.mp hx
  rw [List.getElem_drop]
  have hlen : n + 1 + i < ks.length := by simp at hi; omega
  rw [List.getD_eq_getElem _ _ hn]
  exact (List.pairwise_iff_getElem.mp hs) n (n + 1 + i) hn hlen (by omega)

/-- Splitting a full node along the midpoint produces two well-formed halves
around the promoted key. -/
theorem split_pieces_wf {o : Nat} {lo hi : Option Int} {clf : Bool}
    {ces : List (Int × Int)} {cch : List Node} (hO : 1 ≤ o)
    (hwf : WF o lo hi (.mk clf ces cch))
    (hfull : ces.length = MAX_KEYS o) :
    WF o lo (some ((ces.map Prod.fst).getD o 0))
      (.mk clf (ces.take o) (if clf then cch else cch.take (o + 1))) ∧
    WF o (some ((ces.map Prod.fst).getD o 0)) hi
      (.mk clf (ces.drop (o + 1)) (if clf then [] else cch.drop (o + 1))) ∧
    okLo lo ((ces.map Prod.fst).getD o 0) ∧ okHi hi ((ces.map Prod.fst).getD o 0) := by
  have hKS : MAX_KEYS o = o * 2 := rfl
  have hkslen : (ces.map Prod.fst).length = MAX_KEYS o := by simpa using hfull
  have hmid : o < (ces.map Prod.fst).length := by omega
  have hsorted := hwf.sorted
  have hbd := hwf.key_bounds
  have hm_mem : (ces.map Prod.fst).getD o 0 ∈ ces.map Prod.fst := by
    rw [List.getD_eq_getElem _ _ hmid]
    exact List.getElem_mem hmid
  obtain ⟨hmlo, hmhi⟩ := hbd _ hm_mem
  have hLkeys : (ces.take o).map Prod.fst = (ces.map Prod.fst).take o := List.map_take ..
  have hRkeys : (ces.drop (o + 1)).map Prod.fst = (ces.map Prod.fst).drop (o + 1) :=
    List.map_drop ..
  have hLsorted : ((ces.take o).map Prod.fst).Pairwise (· ≤ ·) := by
    rw [hLkeys]; exact hsorted.sublist (List.take_sublist ..)
  have hRsorted : ((ces.drop (o + 1)).map Prod.fst).Pairwise (· ≤ ·) := by
    rw [hRkeys]; exact hsorted.sublist (List.drop_sublist ..)
  have hLbd : ∀ x ∈ (ces.take o).map Prod.fst,
      okLo lo x ∧ okHi (some ((ces.map Prod.fst).getD o 0)) x := by
    rw [hLkeys]
    intro x hx
    exact ⟨(hbd x (List.mem_of_mem_take hx)).1,
      okHi_some.mpr (mem_take_le_getD hsorted hmid x hx)⟩
  have hRbd : ∀ x ∈ (ces.drop (o + 1)).map Prod.fst,
      okLo (some ((ces.map Prod.fst).getD o 0)) x ∧ okHi hi x := by
    rw [hRkeys]
    intro x hx
    exact ⟨okLo_some.mpr (mem_drop_getD_le hsorted hmid x hx),
      (hbd x (List.mem_of_mem_drop hx)).2⟩
  have hLlen : (ces.take o).length ≤ MAX_KEYS o := by
    simp [List.length_take]; omega
  have hRlen : (ces.drop (o + 1)).length ≤ MAX_KEYS o := by
    simp [List.length_drop]; omega
  refine ⟨?_, ?_, hmlo, hmhi⟩
  · cases clf with
    | true =>
      have hempty := hwf.leaf_no_child
      subst hempty
      simpa using WF.leaf lo _ (ces.take o) hLlen hLsorted hLbd
    | false =>
      have hwfc := hwf.internal_wfc
      have hch := WFC.take hwfc o hmid
      simpa using WF.node lo _ (ces.take o) (cch.take (o + 1)) hLlen hLsorted hLbd
        (by rwa [hLkeys])
  · cases clf with
    | true =>
      simpa using WF.leaf _ hi (ces.drop (o + 1)) hRlen hRsorted hRbd
    | false =>
      have hwfc := hwf.internal_wfc
      have hch := WFC.drop hwfc o hmid
      simpa using WF.node _ hi (ces.drop (o + 1)) (cch.drop (o + 1)) hRlen hRsorted hRbd
        (by rwa [hRkeys])

/-- Replacing the `idx`-th child of a chain by the two halves of its split,
with the promoted key between them, yields a chain again. -/
theorem WFC.split : ∀ {o : Nat} {lo hi : Option Int} {ks : List Int} {ch : List Node},
    WFC o lo hi ks ch → ∀ idx, idx ≤ ks.length →
    ∀ {m : Int} {leftN rightN : Node},
    WF o (bLo lo ks idx) (some m) leftN → WF o (some m) (bHi hi ks idx) rightN →
    WFC o lo hi (ks.take idx ++ m :: ks.drop idx)
      (ch.take idx ++ leftN :: rightN :: ch.drop (idx + 1))
  | _, _, _, _, _, .single lo hi c _, 0, _, m, leftN, rightN, hL, hR => by
    simpa using WFC.cons lo hi m [] leftN [rightN] (by simpa [bLo] using hL)
      (WFC.single (some m) hi rightN (by simpa [bHi] using hR))
  | _, _, _, _, _, .cons lo hi k ks c cs _ hc, 0, _, m, leftN, rightN, hL, hR => by
    simpa using WFC.cons lo hi m (k :: ks) leftN (rightN :: cs) (by simpa [bLo] using hL)
      (WFC.cons (some m) hi k ks rightN cs (by simpa [bHi] using hR) hc)
  | _, _, _, _, _, .cons lo hi k ks c cs hwf hc, idx + 1, hle, m, leftN, rightN, hL, hR => by
    have hbl : bLo lo (k :: ks) (idx + 1) = bLo (some k) ks idx := by
      cases idx with
      | zero => simp [bLo]
      | succ j => simp [bLo]
    have hbh : bHi hi (k :: ks) (idx + 1) = bHi hi ks idx := by
      by_cases hik : idx = ks.length <;> simp [bHi, hik]
    have h := WFC.split hc idx (by simpa using Nat.le_of_succ_le_succ hle)
      (by rwa [← hbl]) (by rwa [← hbh])
    simpa using WFC.cons lo hi k (ks.take idx ++ m :: ks.drop idx) c
      (cs.take idx ++ leftN :: rightN :: cs.drop (idx + 1)) hwf h

/-- Keys of the parent produced by `splitChild`. -/
theorem splitChild_keys (o : Nat) (lf : Bool) (es : List (Int × Int)) (ch : List Node)
    (idx off : Nat) (hmid : MAX_KEYS o / 2 < (ch.getD idx emptyLeaf).entries.length) :
    (splitChild o (Node.mk lf es ch) idx off).1.keys =
      (es.map Prod.fst).take idx ++
        ((ch.getD idx emptyLeaf).entries.map Prod.fst).getD (MAX_KEYS o / 2) 0 ::
        (es.map Prod.fst).drop idx := by
  rw [splitChild_mk]
  simp only [Node.keys_mk, List.map_append, List.map_cons, ← List.map_take, ← List.map_drop]
  rw [getD_fst _ _ hmid]

/-- `splitChild` on a well-formed internal parent with a full child at a valid
index produces a well-formed parent (same bounds). -/
theorem splitChild_wf {o : Nat} {lo hi : Option Int} {es : List (Int × Int)}
    {ch : List Node} {idx off : Nat} (hO : 1 ≤ o)
    (hwf : WF o lo hi (.mk false es ch))
    (hidx : idx ≤ es.length)
    (hfull : (ch.getD idx emptyLeaf).keyCount = MAX_KEYS o)
    (hroom : es.length < MAX_KEYS o) :
    WF o lo hi (splitChild o (.mk false es ch) idx off).1 := by
  have hwfc := hwf.internal_wfc
  have hidx' : idx ≤ (es.map Prod.fst).length := by simpa using hidx
  have hcw := WFC.getD hwfc idx hidx'
  rcases hc : ch.getD idx emptyLeaf with ⟨clf, ces, cch⟩
  rw [hc] at hcw hfull
  simp only [Node.keyCount_mk] at hfull
  obtain ⟨hLwf, hRwf, hmlo, hmhi⟩ := split_pieces_wf hO hcw hfull
  set ks := es.map Prod.fst with hks
  set m := (ces.map Prod.fst).getD o 0 with hm
  have hceslen : o < ces.length := by
    have : MAX_KEYS o = o * 2 := rfl
    omega
  have hsorted := hwf.sorted
  have hbd := hwf.key_bounds
  have hmlo' : okLo lo m := by
    rcases hiz : idx with _ | j
    · subst hiz
      simpa [bLo] using hmlo
    · subst hiz
      have hjlen : j < ks.length := by omega
      have hj : ks.getD j 0 ∈ ks := by
        rw [List.getD_eq_getElem _ _ hjlen]
        exact List.getElem_mem hjlen
      exact okLo_mono (hbd _ hj).1 (by simpa [bLo, okLo_some] using hmlo)
  have hmhi' : okHi hi m := by
    by_cases hiz : idx = ks.length
    · rw [hiz] at hmhi
      simpa [bHi] using hmhi
    · have hidxlt : idx < ks.length := by omega
      have hj : ks.getD idx 0 ∈ ks := by
        rw [List.getD_eq_getElem _ _ hidxlt]
        exact List.getElem_mem hidxlt
      exact okHi_mono (hbd _ hj).2 (by simpa [bHi, hiz, okHi_some] using hmhi)
  have htake_le : ∀ x ∈ ks.take idx, x ≤ m := by
    intro x hx
    rcases hiz : idx with _ | j
    · rw [hiz] at hx; simp at hx
    · subst hiz
      have h2 : ks.getD j 0 ≤ m := by simpa [bLo, okLo_some] using hmlo
      rcases List.mem_iff_getElem.mp hx with ⟨i, hi, rfl⟩
      have hilen : i < ks.length := by simp at hi; omega
      have hij : i ≤ j := by simp at hi; omega
      have hjlen : j < ks.length := by omega
      have hxe : (ks.take (j + 1))[i] = ks.getD i 0 := by
        rw [List.getElem_take, List.getD_eq_getElem _ _ hilen]
      rw [hxe]
      exact le_trans (sorted_getD_le hsorted hij hjlen) h2
  have hdrop_ge : ∀ x ∈ ks.drop idx, m ≤ x := by
    intro x hx
    by_cases hiz : idx = ks.length
    · rw [hiz, List.drop_length] at hx
      simp at hx
    · have hidxlt : idx < ks.length := by omega
      have h2 : m ≤ ks.getD idx 0 := by simpa [bHi, hiz, okHi_some] using hmhi
      rcases List.mem_iff_getElem.mp hx with ⟨i, hi, rfl⟩
      have hlen : idx + i < ks.length := by simp at hi; omega
      have hxe : (ks.drop idx)[i] = ks.getD (idx + i) 0 := by
        rw [List.getElem_drop, List.getD_eq_getElem _ _ hlen]
      rw [hxe]
      exact le_trans h2 (sorted_getD_le hsorted (Nat.le_add_right idx i) hlen)
  -- assemble the well-formedness of the new parent
  rw [splitChild_mk, hc]
  simp only [Node.leaf_mk, Node.entries_mk, Node.child_mk, MAX_KEYS_div2]
  have hkeys' : (es.take idx ++ ces.getD o (0, 0) :: es.drop idx).map Prod.fst
      = ks.take idx ++ m :: ks.drop idx := by
    simp only [List.map_append, List.map_cons, ← List.map_take, ← List.map_drop, hks, hm]
    rw [getD_fst ces o hceslen]
  have hsorted' : ((es.take idx ++ ces.getD o (0, 0) :: es.drop idx).map Prod.fst).Pairwise
      (· ≤ ·) := by
    rw [hkeys']
    rw [List.pairwise_append]
    refine ⟨hsorted.sublist (List.take_sublist ..), ?_, ?_⟩
    · rw [List.pairwise_cons]
      exact ⟨hdrop_ge, hsorted.sublist (List.drop_sublist ..)⟩
    · intro a ha b hb
      rcases List.mem_cons.mp hb with hbm | hb'
      · subst hbm; exact htake_le a ha
      · have h := hsorted
        rw [← hks, ← List.take_append_drop idx ks, List.pairwise_append] at h
        exact h.2.2 a ha b hb'
  have hbd' : ∀ x ∈ (es.take idx ++ ces.getD o (0, 0) :: es.drop idx).map Prod.fst,
      okLo lo x ∧ okHi hi x := by
    rw [hkeys']
    intro x hx
    rcases List.mem_append.mp hx with hx' | hx'
    · exact hbd x (List.mem_of_mem_take hx')
    · rcases List.mem_cons.mp hx' with hxm | hx''
      · subst hxm; exact ⟨hmlo', hmhi'⟩
      · exact hbd x (List.mem_of_mem_drop hx'')
  refine WF.node lo hi _ _ ?_ hsorted' hbd' ?_
  · simp only [List.length_append, List.length_take, List.length_cons, List.length_drop]
    omega
  · rw [hkeys']
    exact WFC.split hwfc idx hidx' hLwf hRwf

/-! ### More helpers -/

theorem getD_mem {α : Type} {l : List α} {i : Nat} (h : i < l.length) (d : α) :
    l.getD i d ∈ l := by
  rw [List.getD_eq_getElem _ _ h]
  exact List.getElem_mem h

theorem getD_append_right_len {α : Type} (l1 l2 : List α) (d : α) (idx n : Nat)
    (h : l1.length = idx) : (l1 ++ l2).getD (idx + n) d = l2.getD n d := by
  subst h
  rw [List.getD_append_right _ _ _ _ (Nat.le_add_right _ _)]
  congr 1
  omega

theorem getD_append_left_len {α : Type} (l1 l2 : List α) (d : α) (i : Nat)
    (h : i < l1.length) : (l1 ++ l2).getD i d = l1.getD i d := by
  exact List.getD_append _ _ _ _ h

theorem heightAux_all_eq {h : Nat} : ∀ {l : List Node}, l ≠ [] →
    (∀ c ∈ l, Node.height c = h) → heightAux l = h + 1
  | [], hne, _ => absurd rfl hne
  | [c], _, hall => by simp [heightAux, hall c (by simp)]
  | c :: c' :: cs, _, hall => by
    have ih := heightAux_all_eq (l := c' :: cs) (by simp)
      (fun d hd => hall d (List.mem_cons_of_mem c hd))
    simp only [heightAux] at ih ⊢
    rw [hall c (by simp)]
    omega

theorem Bal.members {lf : Bool} {es : List (Int × Int)} {ch : List Node}
    (h : Bal (.mk lf es ch)) :
    (∀ c ∈ ch, Bal c) ∧ (∀ c ∈ ch, ∀ d ∈ ch, Node.height c = Node.height d) := by
  cases h with
  | intro _ _ _ h1 h2 => exact ⟨h1, h2⟩

theorem coe_append {α : Type} (l1 l2 : List α) :
    ((l1 ++ l2 : List α) : Multiset α) = (l1 : Multiset α) + (l2 : Multiset α) := by
  exact (Multiset.coe_add l1 l2).symm

theorem coe_split {α : Type} [Inhabited α] (l : List α) (i : Nat) (d : α) (h : i < l.length) :
    (l : Multiset α) = (l.take i : Multiset α) + (l.getD i d ::ₘ (l.drop (i + 1) : Multiset α)) := by
  conv_lhs => rw [list_getD_decomp l i d h]
  rw [coe_append, ← Multiset.cons_coe]

/-- `splitChild` does not change the multiset of entries stored in the subtree. -/
theorem splitChild_entMS {o : Nat} {lo hi : Option Int} {es : List (Int × Int)}
    {ch : List Node} {idx off : Nat} (hO : 1 ≤ o)
    (hwf : WF o lo hi (.mk false es ch))
    (hidx : idx ≤ es.length)
    (hfull : (ch.getD idx emptyLeaf).keyCount = MAX_KEYS o) :
    (splitChild o (.mk false es ch) idx off).1.entMS = (Node.mk false es ch).entMS := by
  have hwfc := hwf.internal_wfc
  have hchlen : ch.length = es.length + 1 := by simpa using hwfc.length
  have hidxch : idx < ch.length := by omega
  have hcw := WFC.getD hwfc idx (by simpa using hidx)
  rcases hc : ch.getD idx emptyLeaf with ⟨clf, ces, cch⟩
  rw [hc] at hcw hfull
  simp only [Node.keyCount_mk] at hfull
  have hceslen : o < ces.length := by
    have : MAX_KEYS o = o * 2 := rfl
    omega
  have hdecomp : ch = ch.take idx ++ Node.mk clf ces cch :: ch.drop (idx + 1) := by
    conv_lhs => rw [list_getD_decomp ch idx emptyLeaf hidxch]
    rw [hc]
  have hkey : Node.entMS (Node.mk clf (ces.take o) (if clf then cch else cch.take (o + 1)))
      + Node.entMS (Node.mk clf (ces.drop (o + 1)) (if clf then [] else cch.drop (o + 1)))
      + {ces.getD o (0, 0)} = Node.entMS (Node.mk clf ces cch) := by
    cases clf with
    | true =>
      have hcchnil : cch = [] := hcw.leaf_no_child
      subst hcchnil
      simp only [if_pos rfl, Node.entMS_mk, entMSL_nil]
      rw [coe_split ces o (0, 0) hceslen, ← Multiset.singleton_add]
      abel
    | false =>
      have hcchdecomp : entMSL cch = entMSL (cch.take (o + 1)) + entMSL (cch.drop (o + 1)) := by
        conv_lhs => rw [← List.take_append_drop (o + 1) cch]
        rw [entMSL_append]
      simp only [if_neg (by simp : ¬ false = true), Node.entMS_mk]
      rw [coe_split ces o (0, 0) hceslen, hcchdecomp, ← Multiset.singleton_add]
      abel
  have hL : (splitChild o (.mk false es ch) idx off).1.entMS
      = (es.take idx : Multiset (Int × Int)) + (ces.getD o (0, 0) ::ₘ (es.drop idx : Multiset (Int × Int)))
        + (entMSL (ch.take idx)
          + (Node.entMS (Node.mk clf (ces.take o) (if clf then cch else cch.take (o + 1)))
            + (Node.entMS (Node.mk clf (ces.drop (o + 1)) (if clf then [] else cch.drop (o + 1)))
              + entMSL (ch.drop (idx + 1))))) := by
    rw [splitChild_mk, hc]
    simp only [Node.entMS_mk, Node.leaf_mk, Node.entries_mk, Node.child_mk, MAX_KEYS_div2]
    rw [entMSL_append, entMSL_cons, entMSL_cons, coe_append, ← Multiset.cons_coe]
    simp only [Node.entMS_mk]
  have hR : (Node.mk false es ch).entMS
      = (es.take idx : Multiset (Int × Int)) + (es.drop idx : Multiset (Int × Int))
        + (entMSL (ch.take idx)
          + (Node.entMS (Node.mk clf ces cch) + entMSL (ch.drop (idx + 1)))) := by
    rw [Node.entMS_mk]
    conv_lhs => rw [hdecomp, ← List.take_append_drop idx es]
    rw [entMSL_append, entMSL_cons, coe_append]
  rw [hL, hR, ← hkey, ← Multiset.singleton_add]
  abel

/-- `splitChild` does not change the height of the (sub)tree rooted at the
parent. -/
theorem splitChild_height {o : Nat} {lo hi : Option Int} {es : List (Int × Int)}
    {ch : List Node} {idx off : Nat} (hO : 1 ≤ o)
    (hwf : WF o lo hi (.mk false es ch))
    (hidx : idx ≤ es.length)
    (hfull : (ch.getD idx emptyLeaf).keyCount = MAX_KEYS o) :
    Node.height (splitChild o (.mk false es ch) idx off).1 =
      Node.height (.mk false es ch) := by
  have hwfc := hwf.internal_wfc
  have hchlen : ch.length = es.length + 1 := by simpa using hwfc.length
  have hidxch : idx < ch.length := by omega
  have hcw := WFC.getD hwfc idx (by simpa using hidx)
  rcases hc : ch.getD idx emptyLeaf with ⟨clf, ces, cch⟩
  rw [hc] at hcw hfull
  simp only [Node.keyCount_mk] at hfull
  have hdecomp : ch = ch.take idx ++ Node.mk clf ces cch :: ch.drop (idx + 1) := by
    conv_lhs => rw [list_getD_decomp ch idx emptyLeaf hidxch]
    rw [hc]
  rw [splitChild_mk, hc]
  simp only [Node.height_mk, Node.leaf_mk, Node.entries_mk, Node.child_mk, MAX_KEYS_div2]
  conv_rhs => rw [hdecomp]
  rw [heightAux_append, heightAux_append]
  simp only [heightAux, Node.height_mk]
  cases clf with
  | true =>
    have hcchnil : cch = [] := hcw.leaf_no_child
    subst hcchnil
    simp only [if_pos rfl, heightAux]
    omega
  | false =>
    simp only [if_neg (by simp : ¬ false = true)]
    have hsplit : max (heightAux (cch.take (o + 1))) (heightAux (cch.drop (o + 1)))
        = heightAux cch := by
      conv_rhs => rw [← List.take_append_drop (o + 1) cch]
      rw [heightAux_append]
    omega

/-- `splitChild` preserves balance. -/
theorem splitChild_bal {o : Nat} {lo hi : Option Int} {es : List (Int × Int)}
    {ch : List Node} {idx off : Nat} (hO : 1 ≤ o)
    (hwf : WF o lo hi (.mk false es ch))
    (hidx : idx ≤ es.length)
    (hfull : (ch.getD idx emptyLeaf).keyCount = MAX_KEYS o)
    (hbal : Bal (.mk false es ch)) :
    Bal (splitChild o (.mk false es ch) idx off).1 := by
  have hwfc := hwf.internal_wfc
  have hchlen : ch.length = es.length + 1 := by simpa using hwfc.length
  have hidxch : idx < ch.length := by omega
  have hcw := WFC.getD hwfc idx (by simpa using hidx)
  obtain ⟨hbm, hbh⟩ := hbal.members
  rcases hc : ch.getD idx emptyLeaf with ⟨clf, ces, cch⟩
  rw [hc] at hcw hfull
  simp only [Node.keyCount_mk] at hfull
  have hceslen : o < ces.length := by
    have : MAX_KEYS o = o * 2 := rfl
    omega
  have hcmem : Node.mk clf ces cch ∈ ch := hc ▸ getD_mem hidxch emptyLeaf
  obtain ⟨hcbm, hcbh⟩ := (hbm _ hcmem).members
  have hpieces :
      Bal (Node.mk clf (ces.take o) (if clf then cch else cch.take (o + 1))) ∧
      Bal (Node.mk clf (ces.drop (o + 1)) (if clf then [] else cch.drop (o + 1))) ∧
      Node.height (Node.mk clf (ces.take o) (if clf then cch else cch.take (o + 1)))
        = Node.height (Node.mk clf ces cch) ∧
      Node.height (Node.mk clf (ces.drop (o + 1)) (if clf then [] else cch.drop (o + 1)))
        = Node.height (Node.mk clf ces cch) := by
    cases clf with
    | true =>
      have hcchnil : cch = [] := hcw.leaf_no_child
      subst hcchnil
      simp only [if_pos rfl]
      exact ⟨Bal.intro _ _ _ (by simp) (by simp),
        Bal.intro _ _ _ (by simp) (by simp), rfl, rfl⟩
    | false =>
      have hcchlen : cch.length = ces.length + 1 := by simpa using hcw.internal_wfc.length
      simp only [if_neg (by simp : ¬ false = true)]
      have htm : ∀ d ∈ cch.take (o + 1), d ∈ cch := fun d hd => List.mem_of_mem_take hd
      have hdm : ∀ d ∈ cch.drop (o + 1), d ∈ cch := fun d hd => List.mem_of_mem_drop hd
      have h0 : cch.getD 0 emptyLeaf ∈ cch := getD_mem (by omega) emptyLeaf
      have hall : ∀ d ∈ cch, Node.height d = Node.height (cch.getD 0 emptyLeaf) :=
        fun d hd => hcbh d hd _ h0
      have htne : cch.take (o + 1) ≠ [] := by
        have hl : (cch.take (o + 1)).length = o + 1 := by simp; omega
        intro hcon
        rw [hcon] at hl
        simp at hl
      have hdne : cch.drop (o + 1) ≠ [] := by
        have hl : (cch.drop (o + 1)).length = cch.length - (o + 1) := by simp
        intro hcon
        rw [hcon] at hl
        simp at hl
        have hKS : MAX_KEYS o = o * 2 := rfl
        omega
      have hcne : cch ≠ [] := by
        intro hcon
        rw [hcon] at hcchlen
        simp at hcchlen
      have ht : heightAux (cch.take (o + 1)) = Node.height (cch.getD 0 emptyLeaf) + 1 :=
        heightAux_all_eq htne (fun d hd => hall d (htm d hd))
      have hd : heightAux (cch.drop (o + 1)) = Node.height (cch.getD 0 emptyLeaf) + 1 :=
        heightAux_all_eq hdne (fun d hd => hall d (hdm d hd))
      have hcc : heightAux cch = Node.height (cch.getD 0 emptyLeaf) + 1 :=
        heightAux_all_eq hcne hall
      refine ⟨Bal.intro _ _ _ (fun d hd => hcbm d (htm d hd))
        (fun c hcm d hdm2 => hcbh c (htm c hcm) d (htm d hdm2)),
        Bal.intro _ _ _ (fun d hd => hcbm d (hdm d hd))
        (fun c hcm d hdm2 => hcbh c (hdm c hcm) d (hdm d hdm2)), ?_, ?_⟩
      · simp only [Node.height_mk, ht, hcc]
      · simp only [Node.height_mk, hd, hcc]
  obtain ⟨hbL, hbR, hhL, hhR⟩ := hpieces
  rw [splitChild_mk, hc]
  simp only [Node.leaf_mk, Node.entries_mk, Node.child_mk, MAX_KEYS_div2]
  have hmem : ∀ x ∈ ch.take idx ++
      Node.mk clf (ces.take o) (if clf then cch else cch.take (o + 1)) ::
      Node.mk clf (ces.drop (o + 1)) (if clf then [] else cch.drop (o + 1)) ::
      ch.drop (idx + 1),
      Bal x ∧ Node.height x = Node.height (Node.mk clf ces cch) := by
    intro x hx
    rcases List.mem_append.mp hx with hx1 | hx1
    · have hxm := List.mem_of_mem_take hx1
      exact ⟨hbm x hxm, hbh x hxm _ hcmem⟩
    · rcases List.mem_cons.mp hx1 with hxe | hx2
      · subst hxe; exact ⟨hbL, hhL⟩
      · rcases List.mem_cons.mp hx2 with hxe | hx3
        · subst hxe; exact ⟨hbR, hhR⟩
        · have hxm := List.mem_of_mem_drop hx3
          exact ⟨hbm x hxm, hbh x hxm _ hcmem⟩
  refine Bal.intro _ _ _ (fun c hcm => (hmem c hcm).1) ?_
  intro c hcm d hdm
  rw [(hmem c hcm).2, (hmem d hdm).2]

/-- The left half sits at child slot `idx` of the parent after the split. -/
theorem splitChild_child_left {o : Nat} {lf : Bool} {es : List (Int × Int)} {ch : List Node}
    {idx off : Nat} (hidxch : idx < ch.length) :
    (splitChild o (.mk lf es ch) idx off).1.child.getD idx emptyLeaf
      = Node.mk (ch.getD idx emptyLeaf).leaf
          ((ch.getD idx emptyLeaf).entries.take (MAX_KEYS o / 2))
          (if (ch.getD idx emptyLeaf).leaf then (ch.getD idx emptyLeaf).child
           else (ch.getD idx emptyLeaf).child.take (MAX_KEYS o / 2 + 1)) := by
  rw [splitChild_mk]
  simp only [Node.child_mk]
  have hlen : (ch.take idx).length = idx := by simp; omega
  simpa using getD_append_right_len (ch.take idx) _ emptyLeaf idx 0 hlen

/-- The new sibling sits at child slot `idx + 1` of the parent after the split. -/
theorem splitChild_child_right {o : Nat} {lf : Bool} {es : List (Int × Int)} {ch : List Node}
    {idx off : Nat} (hidxch : idx < ch.length) :
    (splitChild o (.mk lf es ch) idx off).1.child.getD (idx + 1) emptyLeaf
      = Node.mk (ch.getD idx emptyLeaf).leaf
          ((ch.getD idx emptyLeaf).entries.drop (MAX_KEYS o / 2 + 1))
          (if (ch.getD idx emptyLeaf).leaf then []
           else (ch.getD idx emptyLeaf).child.drop (MAX_KEYS o / 2 + 1)) := by
  rw [splitChild_mk]
  simp only [Node.child_mk]
  have hlen : (ch.take idx).length = idx := by simp; omega
  have h2 := getD_append_right_len (ch.take idx)
    (Node.mk (ch.getD idx emptyLeaf).leaf
        ((ch.getD idx emptyLeaf).entries.take (MAX_KEYS o / 2))
        (if (ch.getD idx emptyLeaf).leaf then (ch.getD idx emptyLeaf).child
         else (ch.getD idx emptyLeaf).child.take (MAX_KEYS o / 2 + 1)) ::
      Node.mk (ch.getD idx emptyLeaf).leaf
        ((ch.getD idx emptyLeaf).entries.drop (MAX_KEYS o / 2 + 1))
        (if (ch.getD idx emptyLeaf).leaf then []
         else (ch.getD idx emptyLeaf).child.drop (MAX_KEYS o / 2 + 1)) ::
      ch.drop (idx + 1)) emptyLeaf idx 1 hlen
  rw [h2]
  simp

/-- The promoted key sits at key slot `idx` of the parent after the split. -/
theorem splitChild_keys_getD {o : Nat} {lf : Bool} {es : List (Int × Int)} {ch : List Node}
    {idx off : Nat} (hidx : idx ≤ es.length)
    (hmid : MAX_KEYS o / 2 < (ch.getD idx emptyLeaf).entries.length) :
    (splitChild o (.mk lf es ch) idx off).1.keys.getD idx 0
      = ((ch.getD idx emptyLeaf).entries.map Prod.fst).getD (MAX_KEYS o / 2) 0 := by
  rw [splitChild_keys _ _ _ _ _ _ hmid]
  have hlen : ((es.map Prod.fst).take idx).length = idx := by simp; omega
  have h2 := getD_append_right_len ((es.map Prod.fst).take idx)
    (((ch.getD idx emptyLeaf).entries.map Prod.fst).getD (MAX_KEYS o / 2) 0 ::
      (es.map Prod.fst).drop idx) 0 idx 0 hlen
  simp only [Nat.add_zero] at h2
  rw [h2]
  simp

/-! ### Updating one child in place -/

theorem entMSL_set (ch : List Node) (i : Nat) (x : Node) (h : i < ch.length) :
    entMSL (ch.set i x) + (ch.getD i emptyLeaf).entMS = entMSL ch + x.entMS := by
  rw [list_set_decomp _ _ _ h]
  conv_rhs => rw [list_getD_decomp ch i emptyLeaf h]
  rw [entMSL_append, entMSL_cons, entMSL_append, entMSL_cons]
  abel

theorem heightAux_set (ch : List Node) (i : Nat) (x : Node) (h : i < ch.length)
    (hx : Node.height x = Node.height (ch.getD i emptyLeaf)) :
    heightAux (ch.set i x) = heightAux ch := by
  rw [list_set_decomp _ _ _ h]
  conv_rhs => rw [list_getD_decomp ch i emptyLeaf h]
  rw [heightAux_append, heightAux_append]
  simp only [heightAux, hx]

theorem not_full_iff (o : Nat) (n : Node) : n.full o = false ↔ n.keyCount ≠ MAX_KEYS o := by
  simp [Node.full]

/-! ### Unfolding `insertNonFull` -/

theorem insertNonFull_leaf (o fuel : Nat) (es : List (Int × Int)) (ch : List Node)
    (k v : Int) (off : Nat) :
    insertNonFull o (fuel + 1) (.mk true es ch) k v off
      = (Node.mk true (leafInsert k v es) ch, off) := by
  simp [insertNonFull]

theorem insertNonFull_split (o fuel : Nat) (es : List (Int × Int)) (ch : List Node)
    (k v : Int) (off : Nat) (pos : Nat) (hpos : pos = findPosKeys k (es.map Prod.fst))
    (hfull : (ch.getD pos emptyLeaf).full o = true)
    (s : Node × Nat) (hs : s = splitChild o (.mk false es ch) pos off)
    (pos' : Nat) (hpos' : pos' = if s.1.keys.getD pos 0 < k then pos + 1 else pos) :
    insertNonFull o (fuel + 1) (.mk false es ch) k v off
      = (Node.mk s.1.leaf s.1.entries
          (s.1.child.set pos' (insertNonFull o fuel (s.1.child.getD pos' emptyLeaf) k v s.2).1),
         (insertNonFull o fuel (s.1.child.getD pos' emptyLeaf) k v s.2).2) := by
  subst hpos hs hpos'
  simp only [insertNonFull, hfull]
  simp

theorem insertNonFull_nosplit (o fuel : Nat) (es : List (Int × Int)) (ch : List Node)
    (k v : Int) (off : Nat) (pos : Nat) (hpos : pos = findPosKeys k (es.map Prod.fst))
    (hfull : (ch.getD pos emptyLeaf).full o = false) :
    insertNonFull o (fuel + 1) (.mk false es ch) k v off
      = (Node.mk false es
          (ch.set pos (insertNonFull o fuel (ch.getD pos emptyLeaf) k v off).1),
         (insertNonFull o fuel (ch.getD pos emptyLeaf) k v off).2) := by
  subst hpos
  simp only [insertNonFull, hfull]
  simp

theorem getD_take {α : Type} (l : List α) (n j : Nat) (d : α) (hj : j < n)
    (hl : j < l.length) : (l.take n).getD j d = l.getD j d := by
  rw [List.getD_eq_getElem _ _ (by simp; omega), List.getD_eq_getElem _ _ hl]
  exact List.getElem_take l

theorem getD_drop {α : Type} (l : List α) (n j : Nat) (d : α) (h : n + j < l.length) :
    (l.drop n).getD j d = l.getD (n + j) d := by
  rw [List.getD_eq_getElem _ _ (by simp; omega), List.getD_eq_getElem _ _ h]
  exact List.getElem_drop l

theorem WF.count_le {o : Nat} {lo hi : Option Int} {t : Node} (h : WF o lo hi t) :
    t.keyCount ≤ MAX_KEYS o := by
  rcases t with ⟨lf, es, ch⟩
  simpa using h.len_le

theorem WF.keys_sorted {o : Nat} {lo hi : Option Int} {t : Node} (h : WF o lo hi t) :
    t.keys.Pairwise (· ≤ ·) := by
  rcases t with ⟨lf, es, ch⟩
  simpa using h.sorted

/-- Insertion into a non-full well-formed node: preserves well-formedness (with
the key within bounds), adds exactly the new entry to the contents, keeps the
height, and preserves balance.  `fuel` only needs to exceed the height. -/
theorem insertNonFull_main {o : Nat} (hO : 1 ≤ o) :
    ∀ (fuel : Nat) (t : Node) (k v : Int) (off : Nat) (lo hi : Option Int),
    WF o lo hi t → okLo lo k → okHi hi k →
    t.keyCount < MAX_KEYS o → t.height < fuel →
    WF o lo hi (insertNonFull o fuel t k v off).1 ∧
    (insertNonFull o fuel t k v off).1.entMS = (k, v) ::ₘ t.entMS ∧
    (insertNonFull o fuel t k v off).1.height = t.height ∧
    (Bal t → Bal (insertNonFull o fuel t k v off).1) := by
  intro fuel
  induction fuel with
  | zero => intro t k v off lo hi _ _ _ _ hft; omega
  | succ fuel ih =>
    intro t k v off lo hi hwf hklo hkhi hcount hft
    rcases t with ⟨lf, es, ch⟩
    simp only [Node.keyCount_mk] at hcount
    cases lf with
    | true =>
      rw [insertNonFull_leaf]
      have hchnil : ch = [] := hwf.leaf_no_child
      subst hchnil
      have hsorted := leafInsert_sorted k v es hwf.sorted
      have hperm := leafInsert_perm k v es
      have hkeysperm : List.Perm ((leafInsert k v es).map Prod.fst) (k :: es.map Prod.fst) :=
        hperm.map Prod.fst
      have hlen : (leafInsert k v es).length = es.length + 1 := leafInsert_length k v es
      refine ⟨?_, ?_, rfl, ?_⟩
      · refine WF.leaf lo hi _ (by omega) hsorted ?_
        intro x hx
        rcases List.mem_cons.mp (hkeysperm.mem_iff.mp hx) with hxk | hxm
        · subst hxk; exact ⟨hklo, hkhi⟩
        · exact hwf.key_bounds x hxm
      · simp only [Node.entMS_mk, entMSL_nil, add_zero]
        have hco : (leafInsert k v es : Multiset (Int × Int)) = (((k, v) :: es : List (Int × Int)) : Multiset (Int × Int)) :=
          Multiset.coe_eq_coe.mpr hperm
        rw [hco, ← Multiset.cons_coe]
      · intro _
        exact Bal.intro _ _ _ (by simp) (by simp)
    | false =>
      have hwfc := hwf.internal_wfc
      set ks := es.map Prod.fst with hksdef
      have hkslen : ks.length = es.length := by simp [hksdef]
      have hchlen : ch.length = ks.length + 1 := hwfc.length
      set pos := findPosKeys k ks with hposdef
      have hpos_le : pos ≤ ks.length := findPosKeys_le k ks
      have hklo1 : okLo (bLo lo ks pos) k := by
        rcases hp0 : pos with _ | j
        · simpa [bLo] using hklo
        · have hj := findPosKeys_early k ks j (by omega)
          simp only [bLo, if_neg (by omega : ¬ j + 1 = 0)]
          rw [okLo_some]
          simpa using le_of_lt hj
      have hkhi1 : okHi (bHi hi ks pos) k := by
        by_cases hpl : pos = ks.length
        · simpa [bHi, hpl] using hkhi
        · have hplt : pos < ks.length := by omega
          have hfound := findPosKeys_found k ks hplt
          simp only [bHi, if_neg hpl]
          rw [okHi_some]
          exact hfound
      by_cases hfullc : (ch.getD pos emptyLeaf).full o = true
      · -- the child on the descent path is full: split it first
        have hfull' : (ch.getD pos emptyLeaf).keyCount = MAX_KEYS o :=
          (Node.full_iff o _).mp hfullc
        have hposles : pos ≤ es.length := by omega
        have hposch : pos < ch.length := by omega
        set s := splitChild o (Node.mk false es ch) pos off with hs
        have hswf : WF o lo hi s.1 := splitChild_wf hO hwf hposles hfull' hcount
        have hsent : s.1.entMS = (Node.mk false es ch).entMS :=
          splitChild_entMS hO hwf hposles hfull'
        have hsh : s.1.height = (Node.mk false es ch).height :=
          splitChild_height hO hwf hposles hfull'
        have hmid : MAX_KEYS o / 2 < (ch.getD pos emptyLeaf).entries.length := by
          rw [MAX_KEYS_div2]
          have : MAX_KEYS o = o * 2 := rfl
          simp only [Node.keyCount] at hfull'
          omega
        set m := ((ch.getD pos emptyLeaf).entries.map Prod.fst).getD (MAX_KEYS o / 2) 0
          with hmdef
        have hsgetD : s.1.keys.getD pos 0 = m := by
          rw [hs]; exact splitChild_keys_getD hposles hmid
        have hskeys : s.1.keys = ks.take pos ++ m :: ks.drop pos := by
          rw [hs]; exact splitChild_keys o false es ch pos off hmid
        have hL := @splitChild_child_left o false es ch pos off hposch
        have hR := @splitChild_child_right o false es ch pos off hposch
        rw [← hs] at hL hR
        rcases hs1 : s.1 with ⟨slf, se, sc⟩
        have hslf : slf = false := by
          have hlf : s.1.leaf = false := by rw [hs, splitChild_mk]; rfl
          rw [hs1] at hlf; simpa using hlf
        subst hslf
        rw [hs1] at hswf hsent hsh hskeys
        simp only [Node.keys_mk] at hskeys
        have hselen : se.length = es.length + 1 := by
          have : s.1.entries = es.take pos ++
              (ch.getD pos emptyLeaf).entries.getD (MAX_KEYS o / 2) (0, 0) :: es.drop pos := by
            rw [hs, splitChild_mk]; rfl
          rw [hs1] at this
          simp only [Node.entries_mk] at this
          rw [this]
          simp only [List.length_append, List.length_take, List.length_cons, List.length_drop]
          omega
        have hwfc2 := hswf.internal_wfc
        have hsclen : sc.length = se.length + 1 := by simpa using hwfc2.length
        set pos' := if m < k then pos + 1 else pos with hpos2
        have hposcond : pos' = if s.1.keys.getD pos 0 < k then pos + 1 else pos := by
          simp only [hsgetD]
        have hposle2 : pos' ≤ (se.map Prod.fst).length := by
          rw [hpos2]
          split <;> simp <;> omega
        have hcwt := WFC.getD hwfc2 pos' hposle2
        -- position bound facts on the split parent keys
        have hgetDpos : (se.map Prod.fst).getD pos 0 = m := by
          rw [hs1] at hsgetD; simpa using hsgetD
        have hklo2 : okLo (bLo lo (se.map Prod.fst) pos') k := by
          rw [hpos2]
          by_cases hmk : m < k
        
          · simp only [if_pos hmk, bLo, if_neg (by omega : ¬ pos + 1 = 0)]
            rw [okLo_some]
            simp only [Nat.add_sub_cancel]
            rw [hgetDpos]
            exact le_of_lt hmk
          · simp only [if_neg hmk]
            rcases hp0 : pos with _ | j
            · simpa [bLo] using hklo
            · simp only [bLo, if_neg (by omega : ¬ j + 1 = 0)]
              rw [okLo_some]
              simp only [Nat.add_sub_cancel]
              have hj := findPosKeys_early k ks j (by omega)
              have hjj : (se.map Prod.fst).getD j 0 = ks.getD j 0 := by
                rw [hskeys]
                rw [getD_append_left_len _ _ _ j (by simp; omega)]
                exact getD_take ks pos j 0 (by omega) (by omega)
              rw [hjj]
              exact le_of_lt hj
        have hkhi2 : okHi (bHi hi (se.map Prod.fst) pos') k := by
          have hselen2 : (se.map Prod.fst).length = ks.length + 1 := by
            simp [hselen]; omega
          rw [hpos2]
          by_cases hmk : m < k
          · simp only [if_pos hmk]
            by_cases hpl : pos = ks.length
            · simp only [bHi, hselen2, if_pos (by omega : pos + 1 = ks.length + 1)]
              exact hkhi
            · have hplt : pos < ks.length := by omega
              simp only [bHi, hselen2, if_neg (by omega : ¬ pos + 1 = ks.length + 1)]
              rw [okHi_some]
              have hval : (se.map Prod.fst).getD (pos + 1) 0 = ks.getD pos 0 := by
                rw [hskeys]
                have hlen2 : (ks.take pos).length = pos := by simp; omega
                have h2 := getD_append_right_len (ks.take pos) (m :: ks.drop pos) 0 pos 1 hlen2
                rw [h2]
                simp only [List.getD_cons_succ]
                exact getD_drop ks pos 0 0 (by omega)
              rw [hval]
              exact findPosKeys_found k ks hplt
          · simp only [if_neg hmk]
            simp only [bHi, hselen2, if_neg (by omega : ¬ pos = ks.length + 1)]
            rw [okHi_some, hgetDpos]
            omega
        -- the recursion target is one of the two fresh halves, hence not full
        have htargetlen : (sc.getD pos' emptyLeaf).keyCount < MAX_KEYS o := by
          have hKS : MAX_KEYS o = o * 2 := rfl
          rw [hpos2]
          by_cases hmk : m < k
          · simp only [if_pos hmk]
            have : sc.getD (pos + 1) emptyLeaf = Node.mk (ch.getD pos emptyLeaf).leaf
                ((ch.getD pos emptyLeaf).entries.drop (MAX_KEYS o / 2 + 1))
                (if (ch.getD pos emptyLeaf).leaf then []
                 else (ch.getD pos emptyLeaf).child.drop (MAX_KEYS o / 2 + 1)) := by
              rw [← show s.1.child = sc from by rw [hs1]; rfl]
              exact hR
            rw [this]
            simp only [Node.keyCount_mk, List.length_drop, MAX_KEYS_div2]
            simp only [Node.keyCount] at hfull'
            omega
          · simp only [if_neg hmk]
            have : sc.getD pos emptyLeaf = Node.mk (ch.getD pos emptyLeaf).leaf
                ((ch.getD pos emptyLeaf).entries.take (MAX_KEYS o / 2))
                (if (ch.getD pos emptyLeaf).leaf then (ch.getD pos emptyLeaf).child
                 else (ch.getD pos emptyLeaf).child.take (MAX_KEYS o / 2 + 1)) := by
              rw [← show s.1.child = sc from by rw [hs1]; rfl]
              exact hL
            rw [this]
            simp only [Node.keyCount_mk, List.length_take, MAX_KEYS_div2]
            simp only [Node.keyCount] at hfull'
            omega
        have htargeth : (sc.getD pos' emptyLeaf).height < fuel := by
          have hmem : sc.getD pos' emptyLeaf ∈ sc := by
            apply getD_mem
            simp at hposle2
            omega
          have h1 := heightAux_ge_of_mem sc _ hmem
          have h2 : heightAux sc = (Node.mk false es ch).height := by
            rw [← hsh, Node.height_mk]
          simp only [Node.height_mk] at hft
          rw [h2] at h1
          simp only [Node.height_mk] at h1 ⊢
          omega
        obtain ⟨ihwf, ihent, ihh, ihbal⟩ := ih (sc.getD pos' emptyLeaf) k v s.2
          (bLo lo (se.map Prod.fst) pos') (bHi hi (se.map Prod.fst) pos')
          hcwt hklo2 hkhi2 htargetlen htargeth
        rw [insertNonFull_split o fuel es ch k v off pos hposdef hfullc s hs pos' hposcond]
        rw [hs1]
        simp only [Node.leaf_mk, Node.entries_mk, Node.child_mk]
        have hposlt2 : pos' < sc.length := by
          simp at hposle2
          omega
        refine ⟨?_, ?_, ?_, ?_⟩
        · exact WF.node lo hi se _ (by rw [hselen]; omega) hswf.sorted hswf.key_bounds
            (WFC.set hwfc2 pos' hposle2 ihwf)
        · simp only [Node.entMS_mk]
          have hset := entMSL_set sc pos'
            (insertNonFull o fuel (sc.getD pos' emptyLeaf) k v s.2).1 hposlt2
          have hkey : (se : Multiset (Int × Int))
              + entMSL (sc.set pos' (insertNonFull o fuel (sc.getD pos' emptyLeaf) k v s.2).1)
              + (sc.getD pos' emptyLeaf).entMS
              = ((k, v) ::ₘ ((es : Multiset (Int × Int)) + entMSL ch))
                + (sc.getD pos' emptyLeaf).entMS := by
            rw [add_assoc, hset, ihent]
            simp only [Node.entMS_mk] at hsent
            rw [← add_assoc, ← Multiset.singleton_add, ← Multiset.singleton_add]
            rw [show (se : Multiset (Int × Int)) + entMSL sc
                + ({(k, v)} + (sc.getD pos' emptyLeaf).entMS)
                = ((se : Multiset (Int × Int)) + entMSL sc)
                  + {(k, v)} + (sc.getD pos' emptyLeaf).entMS from by abel]
            rw [hsent]
            abel
          exact add_right_cancel hkey
        · simp only [Node.height_mk]
          rw [heightAux_set sc pos' _ hposlt2 ihh]
          have h2 : heightAux sc = (Node.mk false es ch).height := by
            rw [← hsh, Node.height_mk]
          rw [h2]
          simp [Node.height_mk]
        · intro hb
          have hsb : Bal (Node.mk false se sc) := by
            rw [← hs1]
            exact splitChild_bal hO hwf hposles hfull' hb
          obtain ⟨hm1, hm2⟩ := hsb.members
          have htmem : sc.getD pos' emptyLeaf ∈ sc := getD_mem hposlt2 emptyLeaf
          have hbr := ihbal (hm1 _ htmem)
          refine Bal.intro _ _ _ ?_ ?_
          · intro c hc
            rcases List.mem_or_eq_of_mem_set hc with hc' | hc'
            · exact hm1 c hc'
            · subst hc'; exact hbr
          · have hhx : ∀ x ∈ sc.set pos'
                (insertNonFull o fuel (sc.getD pos' emptyLeaf) k v s.2).1,
                Node.height x = Node.height (sc.getD pos' emptyLeaf) := by
              intro x hx
              rcases List.mem_or_eq_of_mem_set hx with hx' | hx'
              · exact hm2 x hx' _ htmem
              · subst hx'; exact ihh
            intro c hc d hd
            rw [hhx c hc, hhx d hd]
      · -- the child on the descent path is not full: recurse directly
        have hfullf : (ch.getD pos emptyLeaf).full o = false := by
          simpa using hfullc
        have hposlt : pos < ch.length := by omega
        have hcwt := WFC.getD hwfc pos hpos_le
        have htlen : (ch.getD pos emptyLeaf).keyCount < MAX_KEYS o := by
          have h1 := hcwt.count_le
          have h2 := (not_full_iff o _).mp hfullf
          omega
        have htgh : (ch.getD pos emptyLeaf).height < fuel := by
          have hmem : ch.getD pos emptyLeaf ∈ ch := getD_mem hposlt emptyLeaf
          have h1 := heightAux_ge_of_mem ch _ hmem
          simp only [Node.height_mk] at hft
          omega
        obtain ⟨ihwf, ihent, ihh, ihbal⟩ := ih (ch.getD pos emptyLeaf) k v off
          (bLo lo ks pos) (bHi hi ks pos) hcwt hklo1 hkhi1 htlen htgh
        rw [insertNonFull_nosplit o fuel es ch k v off pos hposdef hfullf]
        refine ⟨?_, ?_, ?_, ?_⟩
        · exact WF.node lo hi es _ (by omega) hwf.sorted hwf.key_bounds
            (WFC.set hwfc pos hpos_le ihwf)
        · simp only [Node.entMS_mk]
          have hset := entMSL_set ch pos
            (insertNonFull o fuel (ch.getD pos emptyLeaf) k v off).1 hposlt
          have hkey : (es : Multiset (Int × Int))
              + entMSL (ch.set pos (insertNonFull o fuel (ch.getD pos emptyLeaf) k v off).1)
              + (ch.getD pos emptyLeaf).entMS
              = ((k, v) ::ₘ ((es : Multiset (Int × Int)) + entMSL ch))
                + (ch.getD pos emptyLeaf).entMS := by
            rw [add_assoc, hset, ihent]
            rw [← Multiset.singleton_add, ← Multiset.singleton_add]
            abel
          exact add_right_cancel hkey
        · simp only [Node.height_mk]
          rw [heightAux_set ch pos _ hposlt ihh]
        · intro hb
          obtain ⟨hm1, hm2⟩ := hb.members
          have htmem : ch.getD pos emptyLeaf ∈ ch := getD_mem hposlt emptyLeaf
          have hbr := ihbal (hm1 _ htmem)
          refine Bal.intro _ _ _ ?_ ?_
          · intro c hc
            rcases List.mem_or_eq_of_mem_set hc with hc' | hc'
            · exact hm1 c hc'
            · subst hc'; exact hbr
          · have hhx : ∀ x ∈ ch.set pos
                (insertNonFull o fuel (ch.getD pos emptyLeaf) k v off).1,
                Node.height x = Node.height (ch.getD pos emptyLeaf) := by
              intro x hx
              rcases List.mem_or_eq_of_mem_set hx with hx' | hx'
              · exact hm2 x hx' _ htmem
              · subst hx'; exact ihh
            intro c hc d hd
            rw [hhx c hc, hhx d hd]

/-! ### The top-level insert -/

theorem insert_full_eq (o : Nat) (r : Node) (off : Nat) (k v : Int)
    (hfull : r.full o = true) :
    insert o ⟨r, off⟩ k v =
      ⟨(insertNonFull o (r.size + 1)
          (splitChild o (Node.mk false [] [r]) 0 (off + 1)).1 k v
          (splitChild o (Node.mk false [] [r]) 0 (off + 1)).2).1,
        (insertNonFull o (r.size + 1)
          (splitChild o (Node.mk false [] [r]) 0 (off + 1)).1 k v
          (splitChild o (Node.mk false [] [r]) 0 (off + 1)).2).2⟩ := by
  simp [insert, hfull, allocNode]

theorem insert_notfull_eq (o : Nat) (r : Node) (off : Nat) (k v : Int)
    (hfull : r.full o = false) :
    insert o ⟨r, off⟩ k v =
      ⟨(insertNonFull o (r.size + 1) r k v off).1,
        (insertNonFull o (r.size + 1) r k v off).2⟩ := by
  simp [insert, hfull]

/-- The auxiliary root created during a root split (`s->child[0] = r`) is
well-formed whenever the old root is. -/
theorem auxRoot_wf {o : Nat} {r : Node} (hwf : WF o none none r) (hO : 1 ≤ o) :
    WF o none none (Node.mk false [] [r]) := by
  refine WF.node none none [] [r] ?_ ?_ ?_ ?_
  · simp [MAX_KEYS]
  · simp
  · simp
  · exact WFC.single none none r hwf

/-- Effect of one `insert` on a well-formed root: well-formedness, contents,
balance are preserved (the new entry is added), and the height grows by one
exactly when the root was full. -/
theorem insert_main {o : Nat} (hO : 1 ≤ o) (t : Tree) (k v : Int)
    (hwf : WF o none none t.root) :
    WF o none none (insert o t k v).root ∧
    (insert o t k v).root.entMS = (k, v) ::ₘ t.root.entMS ∧
    (Bal t.root → Bal (insert o t k v).root) ∧
    (insert o t k v).root.height =
      (if t.root.full o then t.root.height + 1 else t.root.height) := by
  rcases t with ⟨r, off⟩
  replace hwf : WF o none none r := hwf
  simp only
  by_cases hfull : r.full o = true
  · rw [insert_full_eq o r off k v hfull, if_pos hfull]
    simp only
    have hfull' : (([r] : List Node).getD 0 emptyLeaf).keyCount = MAX_KEYS o := by
      simpa using (Node.full_iff o r).mp hfull
    have hs1wf : WF o none none (Node.mk false [] [r]) := auxRoot_wf hwf hO
    have hroom : ([] : List (Int × Int)).length < MAX_KEYS o := by
      simp [MAX_KEYS]; omega
    have hswf := @splitChild_wf o none none [] [r] 0 (off + 1) hO hs1wf (by simp) hfull' hroom
    have hsent := @splitChild_entMS o none none [] [r] 0 (off + 1) hO hs1wf (by simp) hfull'
    have hsh := @splitChild_height o none none [] [r] 0 (off + 1) hO hs1wf (by simp) hfull'
    have hs1h : (Node.mk false [] [r]).height = r.height + 1 := by
      simp [Node.height_mk, heightAux]
    have hs1ent : (Node.mk false [] [r]).entMS = r.entMS := by
      simp [Node.entMS_mk, entMSL_cons, entMSL_nil]
    have hscount : (splitChild o (Node.mk false [] [r]) 0 (off + 1)).1.keyCount
        < MAX_KEYS o := by
      rw [splitChild_mk]
      simp only [Node.keyCount_mk, List.take_nil, List.drop_nil, List.length_cons,
        List.length_nil, List.nil_append]
      have : MAX_KEYS o = o * 2 := rfl
      omega
    have hsheight : (splitChild o (Node.mk false [] [r]) 0 (off + 1)).1.height
        < r.size + 1 := by
      rw [hsh, hs1h]
      have := Node.height_lt_size r
      omega
    obtain ⟨mwf, ment, mh, mbal⟩ := insertNonFull_main hO (r.size + 1)
      (splitChild o (Node.mk false [] [r]) 0 (off + 1)).1 k v
      (splitChild o (Node.mk false [] [r]) 0 (off + 1)).2 none none
      hswf (okLo_none k) (okHi_none k) hscount hsheight
    refine ⟨mwf, ?_, ?_, ?_⟩
    · rw [ment, hsent, hs1ent]
    · intro hb
      have hs1b : Bal (Node.mk false [] [r]) := by
        refine Bal.intro _ _ _ ?_ ?_
        · intro c hc
          rcases List.mem_singleton.mp hc with rfl
          exact hb
        · intro c hc d hd
          rcases List.mem_singleton.mp hc with rfl
          rcases List.mem_singleton.mp hd with rfl
          rfl
      exact mbal (@splitChild_bal o none none [] [r] 0 (off + 1) hO hs1wf (by simp) hfull' hs1b)
    · rw [mh, hsh, hs1h]
  · have hfullf : r.full o = false := by simpa using hfull
    rw [insert_notfull_eq o r off k v hfullf, if_neg (by simp [hfullf])]
    simp only
    have hcount : r.keyCount < MAX_KEYS o := by
      have h1 := hwf.count_le
      have h2 := (not_full_iff o r).mp hfullf
      omega
    have hheight : r.height < r.size + 1 := by
      have := Node.height_lt_size r
      omega
    obtain ⟨mwf, ment, mh, mbal⟩ := insertNonFull_main hO (r.size + 1) r k v off none none
      hwf (okLo_none k) (okHi_none k) hcount hheight
    exact ⟨mwf, ment, mbal, mh⟩

/-- The freshly constructed tree: empty well-formed balanced root. -/
theorem mkTree_wf (o : Nat) :
    WF o none none mkTree.root ∧ mkTree.root.entMS = 0 ∧ Bal mkTree.root := by
  refine ⟨WF.leaf none none [] (by simp) (by simp) (by simp), rfl, ?_⟩
  exact Bal.intro _ _ _ (by simp) (by simp)

/-- Invariant of any insertion sequence applied to a tree state. -/
theorem insertList_inv {o : Nat} (hO : 1 ≤ o) :
    ∀ (l : List (Int × Int)) (t : Tree), WF o none none t.root → Bal t.root →
    WF o none none (insertList o t l).root ∧
    (insertList o t l).root.entMS = (l : Multiset (Int × Int)) + t.root.entMS ∧
    Bal (insertList o t l).root
  | [], t, hwf, hbal => ⟨hwf, by simp [insertList], hbal⟩
  | x :: xs, t, hwf, hbal => by
    obtain ⟨iwf, ient, ibal, _⟩ := insert_main hO t x.1 x.2 hwf
    have hstep : insertList o t (x :: xs) = insertList o (insert o t x.1 x.2) xs := by
      simp [insertList]
    obtain ⟨rwf, rent, rbal⟩ := insertList_inv hO xs (insert o t x.1 x.2) iwf (ibal hbal)
    refine ⟨by rwa [hstep], ?_, by rwa [hstep]⟩
    rw [hstep, rent, ient]
    rw [← Multiset.cons_coe, ← Multiset.singleton_add, ← Multiset.singleton_add]
    abel

/-- Invariant of any insertion sequence from the fresh tree. -/
theorem insertList_mkTree_inv {o : Nat} (hO : 1 ≤ o) (l : List (Int × Int)) :
    WF o none none (insertList o mkTree l).root ∧
    (insertList o mkTree l).root.entMS = (l : Multiset (Int × Int)) ∧
    Bal (insertList o mkTree l).root := by
  obtain ⟨h1, h2, h3⟩ := mkTree_wf o
  obtain ⟨r1, r2, r3⟩ := insertList_inv hO l mkTree h1 h3
  exact ⟨r1, by rw [r2, h2, add_zero], r3⟩

/-! ### Search correctness -/

theorem mem_entMSL_idx {x : Int × Int} : ∀ {ch : List Node},
    x ∈ entMSL ch ↔ ∃ j, j < ch.length ∧ x ∈ (ch.getD j emptyLeaf).entMS := by
  intro ch
  induction ch with
  | nil => simp [entMSL]
  | cons c cs ihc =>
    simp only [entMSL_cons, Multiset.mem_add, ihc]
    constructor
    · intro h
      rcases h with h | ⟨j, hj, hmem⟩
      · exact ⟨0, by simp, by simpa using h⟩
      · exact ⟨j + 1, by simpa using Nat.succ_lt_succ hj, by simpa using hmem⟩
    · intro ⟨j, hj, hmem⟩
      match j with
      | 0 => exact Or.inl (by simpa using hmem)
      | j + 1 =>
        exact Or.inr ⟨j, by simp at hj; omega, by simpa using hmem⟩

theorem findPos_mem_eq {k : Int} {ks : List Int} (hs : ks.Pairwise (· ≤ ·))
    (hk : k ∈ ks) : findPosKeys k ks < ks.length ∧ ks.getD (findPosKeys k ks) 0 = k := by
  obtain ⟨i, hi, rfl⟩ := List.mem_iff_getElem.mp hk
  have hgi : ks.getD i 0 = ks[i] := List.getD_eq_getElem ks 0 hi
  have hposle : findPosKeys ks[i] ks ≤ ks.length := findPosKeys_le _ ks
  have hipos : findPosKeys ks[i] ks ≤ i := by
    by_contra hcon
    have := findPosKeys_early ks[i] ks i (by omega)
    rw [hgi] at this
    omega
  have hlt : findPosKeys ks[i] ks < ks.length := by omega
  refine ⟨hlt, le_antisymm ?_ (findPosKeys_found _ ks hlt)⟩
  calc ks.getD (findPosKeys ks[i] ks) 0 ≤ ks.getD i 0 := sorted_getD_le hs hipos hi
    _ = ks[i] := hgi

theorem Node.search_unfold (k : Int) (lf : Bool) (es : List (Int × Int)) (ch : List Node) :
    Node.search k (.mk lf es ch) =
      if findPosKeys k (es.map Prod.fst) < es.length ∧
          (es.getD (findPosKeys k (es.map Prod.fst)) (0, 0)).1 = k then
        some (es.getD (findPosKeys k (es.map Prod.fst)) (0, 0)).2
      else if lf then none
      else searchChild k (findPosKeys k (es.map Prod.fst)) ch := by
  rw [Node.search]

/-- Soundness: a successful search returns a value stored with the key. -/
theorem search_sound {o : Nat} : ∀ t : Node, ∀ {lo hi : Option Int} {k v : Int},
    WF o lo hi t → Node.search k t = some v → (k, v) ∈ t.entMS := by
  refine Node.ind _ ?_
  intro lf es ch ihc lo hi k v hwf hsearch
  rw [Node.search_unfold] at hsearch
  set pos := findPosKeys k (es.map Prod.fst) with hposdef
  by_cases hcond : pos < es.length ∧ (es.getD pos (0, 0)).1 = k
  · rw [if_pos hcond] at hsearch
    have hv : v = (es.getD pos (0, 0)).2 := by
      injection hsearch with h
      exact h.symm
    have hmem : es.getD pos (0, 0) ∈ es := getD_mem hcond.1 (0, 0)
    have : (k, v) = es.getD pos (0, 0) := by
      rw [hv, ← hcond.2]
    rw [this]
    simp only [Node.entMS_mk, Multiset.mem_add, Multiset.mem_coe]
    exact Or.inl hmem
  · rw [if_neg hcond] at hsearch
    cases lf with
    | true => simp at hsearch
    | false =>
      simp only [if_neg (by simp : ¬ (false : Bool) = true)] at hsearch
      have hchlen : ch.length = (es.map Prod.fst).length + 1 := hwf.internal_wfc.length
      have hposlt : pos < ch.length := by
        have hle := findPosKeys_le k (es.map Prod.fst)
        simp only [List.length_map] at hle hchlen
        omega
      rw [searchChild_eq k pos ch hposlt] at hsearch
      have hcw := WFC.getD hwf.internal_wfc pos (by
        have := findPosKeys_le k (es.map Prod.fst)
        omega)
      have hmem := ihc _ (getD_mem hposlt emptyLeaf) hcw hsearch
      simp only [Node.entMS_mk, Multiset.mem_add]
      exact Or.inr (mem_entMSL_idx.mpr ⟨pos, hposlt, hmem⟩)

/-- Completeness: searching for a stored key succeeds, and the result is one of
the values stored with that key. -/
theorem search_complete {o : Nat} : ∀ t : Node, ∀ {lo hi : Option Int} {k v : Int},
    WF o lo hi t → (k, v) ∈ t.entMS →
    ∃ v', Node.search k t = some v' ∧ (k, v') ∈ t.entMS := by
  refine Node.ind _ ?_
  intro lf es ch ihc lo hi k v hwf hmem
  rw [Node.search_unfold]
  set ks := es.map Prod.fst with hksdef
  set pos := findPosKeys k ks with hposdef
  by_cases hcond : pos < es.length ∧ (es.getD pos (0, 0)).1 = k
  · rw [if_pos hcond]
    refine ⟨(es.getD pos (0, 0)).2, rfl, ?_⟩
    have hmem2 : es.getD pos (0, 0) ∈ es := getD_mem hcond.1 (0, 0)
    have heq : (k, (es.getD pos (0, 0)).2) = es.getD pos (0, 0) := by
      rw [← hcond.2]
    rw [heq]
    simp only [Node.entMS_mk, Multiset.mem_add, Multiset.mem_coe]
    exact Or.inl hmem2
  · rw [if_neg hcond]
    have hknot : k ∉ ks := by
      intro hk
      obtain ⟨hlt, heq⟩ := findPos_mem_eq hwf.keys_sorted (by simpa [hksdef] using hk)
      have hlt' : pos < es.length := by
        rw [hposdef, hksdef]
        simpa using hlt
      refine hcond ⟨hlt', ?_⟩
      rw [getD_fst es pos hlt']
      rw [hposdef, hksdef]
      simpa using heq
    have hmemch : (k, v) ∈ entMSL ch := by
      simp only [Node.entMS_mk, Multiset.mem_add, Multiset.mem_coe] at hmem
      rcases hmem with hmem | hmem
      · exact absurd (by simpa [hksdef] using List.mem_map_of_mem Prod.fst hmem) hknot
      · exact hmem
    cases lf with
    | true =>
      have hchnil : ch = [] := hwf.leaf_no_child
      subst hchnil
      simp [entMSL] at hmemch
    | false =>
      simp only [if_neg (by simp : ¬ (false : Bool) = true)]
      obtain ⟨j, hj, hjm⟩ := mem_entMSL_idx.mp hmemch
      have hchlen : ch.length = ks.length + 1 := hwf.internal_wfc.length
      have hjle : j ≤ ks.length := by omega
      have hjw := WFC.getD hwf.internal_wfc j hjle
      obtain ⟨hjlo, hjhi⟩ := hjw.entMS_key_bounds hjm
      have hpos_le : pos ≤ ks.length := findPosKeys_le k ks
      have hjpos : j = pos := by
        by_contra hne
        rcases Nat.lt_or_ge j pos with hjlt | hjge
        · -- j < pos : child j is bounded above by ks[j] < k
          have hjk : j < ks.length := by omega
          have hup : k ≤ ks.getD j 0 := by
            have := hjhi
            simp only [bHi, if_neg (by omega : ¬ j = ks.length)] at this
            exact okHi_some.mp this
          have := findPosKeys_early k ks j hjlt
          omega
        · -- j > pos : child j is bounded below by ks[j-1] ≥ ks[pos] ≥ k
          have hjgt : pos < j := by omega
          have hj1 : j - 1 < ks.length := by omega
          have hlow : ks.getD (j - 1) 0 ≤ k := by
            have := hjlo
            simp only [bLo, if_neg (by omega : ¬ j = 0)] at this
            exact okLo_some.mp this
          have hposlt : pos < ks.length := by omega
          have hfound := findPosKeys_found k ks hposlt
          rw [← hposdef] at hfound
          have hmono : ks.getD pos 0 ≤ ks.getD (j - 1) 0 :=
            sorted_getD_le hwf.keys_sorted (by omega) hj1
          have heqk : ks.getD pos 0 = k := by omega
          refine hcond ⟨by rw [hksdef] at hposlt; simpa using hposlt, ?_⟩
          have hlt' : pos < es.length := by
            rw [hksdef] at hposlt; simpa using hposlt
          rw [getD_fst es pos hlt']
          exact heqk
      subst hjpos
      have hjchlt : pos < ch.length := by omega
      rw [searchChild_eq k pos ch hjchlt]
      obtain ⟨v', hs', hm'⟩ := ihc _ (getD_mem hjchlt emptyLeaf) hjw hjm
      refine ⟨v', hs', ?_⟩
      simp only [Node.entMS_mk, Multiset.mem_add]
      exact Or.inr (mem_entMSL_idx.mpr ⟨pos, hjchlt, hm'⟩)

/-- With globally distinct keys an association list determines values uniquely. -/
theorem nodup_assoc {l : List (Int × Int)} (h : (l.map Prod.fst).Nodup) :
    ∀ {k v v' : Int}, (k, v) ∈ l → (k, v') ∈ l → v = v' := by
  induction l with
  | nil => intro k v v' h1; simp at h1
  | cons e rest ihr =>
    intro k v v' h1 h2
    simp only [List.map_cons, List.nodup_cons] at h
    rcases List.mem_cons.mp h1 with h1' | h1' <;> rcases List.mem_cons.mp h2 with h2' | h2'
    · rw [← h1'] at h2'; injection h2' with _ hv; exact hv.symm
    · exact absurd (by rw [← h1']; simpa using List.mem_map_of_mem Prod.fst h2') h.1
    · exact absurd (by rw [← h2']; simpa using List.mem_map_of_mem Prod.fst h1') h.1
    · exact ihr h.2 h1' h2'

/-! ### The search loop only reads -/

theorem searchLoopChild_frame (k : Int) (t : Tree) : ∀ (pos : Nat) (ch : List Node),
    (∀ c ∈ ch, ∀ t' : Tree, searchLoopGo k t' c = (Node.search k c, t')) →
    searchLoopChild k t pos ch = (searchChild k pos ch, t)
  | _, [], _ => by simp [searchLoopChild, searchChild]
  | 0, c :: cs, hm => by
    simp only [searchLoopChild, searchChild]
    exact hm c (by simp) t
  | pos + 1, c :: cs, hm => by
    simp only [searchLoopChild, searchChild]
    exact searchLoopChild_frame k t pos cs (fun c hc => hm c (by simp [hc]))

theorem searchLoopGo_frame : ∀ (cur : Node) (t : Tree) (k : Int),
    searchLoopGo k t cur = (Node.search k cur, t) := by
  refine Node.ind _ ?_
  intro lf es ch ihc t k
  rw [searchLoopGo, Node.search]
  split
  · rfl
  · split
    · rfl
    · exact searchLoopChild_frame k t _ ch (fun c hc t' => ihc c hc t' k)

/-! ### Bridges from `WF`/`Bal` to the claimed invariants -/

theorem WFC.mem_wf : ∀ {o : Nat} {lo hi : Option Int} {ks : List Int} {ch : List Node},
    WFC o lo hi ks ch → ∀ c ∈ ch, ∃ lo' hi', WF o lo' hi' c
  | _, _, _, _, _, .single lo hi c hwf, d, hd => by
    rcases List.mem_singleton.mp hd with rfl
    exact ⟨lo, hi, hwf⟩
  | _, _, _, _, _, .cons lo hi k ks c cs hwf hc, d, hd => by
    rcases List.mem_cons.mp hd with rfl | hd'
    · exact ⟨lo, some k, hwf⟩
    · exact WFC.mem_wf hc d hd'

theorem ordOKL_of_forall : ∀ {ch : List Node}, (∀ c ∈ ch, Node.ordOK c) → ordOKL ch
  | [], _ => trivial
  | c :: cs, h =>
    ⟨h c (by simp), ordOKL_of_forall (fun d hd => h d (by simp [hd]))⟩

theorem countsOKL_of_forall {o : Nat} : ∀ {ch : List Node},
    (∀ c ∈ ch, Node.countsOK o c) → countsOKL o ch
  | [], _ => trivial
  | c :: cs, h =>
    ⟨h c (by simp), countsOKL_of_forall (fun d hd => h d (by simp [hd]))⟩

theorem emptyLeaf_keysAll : Node.keysAll emptyLeaf = [] := rfl

/-- Well-formedness gives exactly the ordering invariant claimed by the spec. -/
theorem wf_ordOK {o : Nat} : ∀ t : Node, ∀ {lo hi : Option Int}, WF o lo hi t →
    t.ordOK := by
  refine Node.ind _ ?_
  intro lf es ch ihc lo hi hwf
  rw [Node.ordOK]
  refine ⟨hwf.sorted, ?_, ?_⟩
  · intro i hi2
    cases lf with
    | true =>
      have hchnil : ch = [] := hwf.leaf_no_child
      subst hchnil
      simp [emptyLeaf_keysAll]
    | false =>
      have hwfc := hwf.internal_wfc
      have hkl : (es.map Prod.fst).length = es.length := by simp
      have hw1 := WFC.getD hwfc i (by omega)
      have hw2 := WFC.getD hwfc (i + 1) (by omega)
      constructor
      · intro x hx
        have hb := (WF.keysAll_bounds hw1 x hx).2
        simp only [bHi, if_neg (by omega : ¬ i = (es.map Prod.fst).length)] at hb
        exact okHi_some.mp hb
      · intro x hx
        have hb := (WF.keysAll_bounds hw2 x hx).1
        simp only [bLo, if_neg (by omega : ¬ i + 1 = 0), Nat.add_sub_cancel] at hb
        exact okLo_some.mp hb
  · cases lf with
    | true =>
      have hchnil : ch = [] := hwf.leaf_no_child
      subst hchnil
      trivial
    | false =>
      refine ordOKL_of_forall ?_
      intro c hc
      obtain ⟨lo', hi', hcw⟩ := hwf.internal_wfc.mem_wf c hc
      exact ihc c hc hcw

/-- Well-formedness gives the occupancy bound on every reachable node. -/
theorem wf_countsOK {o : Nat} : ∀ t : Node, ∀ {lo hi : Option Int}, WF o lo hi t →
    Node.countsOK o t := by
  refine Node.ind _ ?_
  intro lf es ch ihc lo hi hwf
  rw [Node.countsOK]
  refine ⟨hwf.len_le, ?_⟩
  cases lf with
  | true =>
    have hchnil : ch = [] := hwf.leaf_no_child
    subst hchnil
    trivial
  | false =>
    refine countsOKL_of_forall ?_
    intro c hc
    obtain ⟨lo', hi', hcw⟩ := hwf.internal_wfc.mem_wf c hc
    exact ihc c hc hcw

theorem mem_leafDepthsL : ∀ {ch : List Node} {x : Nat},
    x ∈ leafDepthsL ch ↔ ∃ c ∈ ch, ∃ d, x = d + 1 ∧ d ∈ Node.leafDepths c := by
  intro ch x
  induction ch with
  | nil => simp [leafDepthsL]
  | cons c cs ihc =>
    simp only [leafDepthsL, List.mem_append, List.mem_map, ihc]
    constructor
    · intro h
      rcases h with ⟨d, hd, hx⟩ | ⟨c', hc', d, hx, hd⟩
      · exact ⟨c, by simp, d, hx.symm, hd⟩
      · exact ⟨c', by simp [hc'], d, hx, hd⟩
    · intro ⟨c', hc', d, hx, hd⟩
      rcases List.mem_cons.mp hc' with rfl | hc''
      · exact Or.inl ⟨d, hd, hx.symm⟩
      · exact Or.inr ⟨c', hc'', d, hx, hd⟩

/-- In a well-formed balanced tree every leaf sits at depth `height`. -/
theorem bal_leafDepths {o : Nat} : ∀ t : Node, ∀ {lo hi : Option Int}, WF o lo hi t →
    Bal t → ∀ d ∈ t.leafDepths, d = t.height := by
  refine Node.ind _ ?_
  intro lf es ch ihc lo hi hwf hbal d hd
  cases lf with
  | true =>
    have hchnil : ch = [] := hwf.leaf_no_child
    subst hchnil
    simp only [Node.leafDepths] at hd
    simp only [List.mem_singleton] at hd
    subst hd
    simp [Node.height_mk, heightAux]
  | false =>
    obtain ⟨hbm, hbh⟩ := hbal.members
    simp only [Node.leafDepths] at hd
    obtain ⟨c, hc, d', rfl, hd'⟩ := mem_leafDepthsL.mp hd
    obtain ⟨lo', hi', hcw⟩ := hwf.internal_wfc.mem_wf c hc
    have hdc : d' = c.height := ihc c hc hcw (hbm c hc) d' hd'
    subst hdc
    have hchlen : ch.length = (es.map Prod.fst).length + 1 := hwf.internal_wfc.length
    have hchne : ch ≠ [] := by
      intro hcon
      rw [hcon] at hchlen
      simp at hchlen
    have hall : ∀ x ∈ ch, Node.height x = Node.height c := fun x hx => hbh x hx c hc
    simp only [Node.height_mk]
    rw [heightAux_all_eq hchne hall]

theorem Tree.search_fst (t : Tree) (k : Int) : (t.search k).1 = Node.search k t.root := by
  rw [Tree.search, searchLoopGo_frame]

/-! ## The claims -/

/-- C4: for every node with its meaningful keys sorted non-decreasingly and
every key `k`, `findPos(node, k)` returns the smallest index `i` in
`[0, key_count)` such that `keys[i] ≥ k`, and returns `key_count` when no such
index exists. -/
theorem claim_C4 (n : Node) (k : Int) (hs : n.keys.Pairwise (· ≤ ·)) :
    findPos n k ≤ n.keyCount ∧
    (∀ j, j < findPos n k → n.keys.getD j 0 < k) ∧
    (findPos n k < n.keyCount → k ≤ n.keys.getD (findPos n k) 0) := by
  have hlen : n.keys.length = n.keyCount := by
    rcases n with ⟨lf, es, ch⟩
    simp [Node.keys, Node.keyCount]
  refine ⟨?_, ?_, ?_⟩
  · rw [← hlen]; exact findPosKeys_le k n.keys
  · intro j hj; exact findPosKeys_early k n.keys j hj
  · intro h; exact findPosKeys_found k n.keys (by rw [hlen]; exact h)

theorem claim_C4_witness :
    (Node.mk true [(1, 10), (3, 30)] []).keys.Pairwise (· ≤ ·) ∧
    (findPos (Node.mk true [(1, 10), (3, 30)] []) 2
        ≤ (Node.mk true [(1, 10), (3, 30)] []).keyCount ∧
      (∀ j, j < findPos (Node.mk true [(1, 10), (3, 30)] []) 2 →
        (Node.mk true [(1, 10), (3, 30)] []).keys.getD j 0 < 2) ∧
      (findPos (Node.mk true [(1, 10), (3, 30)] []) 2
          < (Node.mk true [(1, 10), (3, 30)] []).keyCount →
        2 ≤ (Node.mk true [(1, 10), (3, 30)] []).keys.getD
          (findPos (Node.mk true [(1, 10), (3, 30)] []) 2) 0)) :=
  ⟨by decide, claim_C4 (Node.mk true [(1, 10), (3, 30)] []) 2 (by decide)⟩

/-- C1: for every sequence of inserted `(key, value)` pairs with pairwise
distinct keys, and after every prefix of that sequence, `search(key)` returns
the value associated with `key` for each key inserted in that prefix. -/
theorem claim_C1 (o : Nat) (hO : 1 ≤ o) (l p s : List (Int × Int))
    (hps : l = p ++ s) (hnd : (l.map Prod.fst).Nodup)
    (k v : Int) (hkv : (k, v) ∈ p) :
    ((insertList o mkTree p).search k).1 = some v := by
  have hpnd : (p.map Prod.fst).Nodup := by
    rw [hps, List.map_append] at hnd
    exact (List.nodup_append.mp hnd).1
  obtain ⟨hwf, hent, _⟩ := insertList_mkTree_inv hO p
  have hmem : (k, v) ∈ (insertList o mkTree p).root.entMS := by
    rw [hent]
    exact Multiset.mem_coe.mpr hkv
  obtain ⟨v', hs', hm'⟩ := search_complete _ hwf hmem
  have hm'' : (k, v') ∈ p := by
    rw [hent] at hm'
    exact Multiset.mem_coe.mp hm'
  rw [Tree.search_fst, hs', nodup_assoc hpnd hm'' hkv]

theorem claim_C1_witness :
    ((1 ≤ 2) ∧
      ([((1 : Int), (10 : Int)), (2, 20)] = [((1 : Int), (10 : Int)), (2, 20)] ++ []) ∧
      (([((1 : Int), (10 : Int)), (2, 20)].map Prod.fst).Nodup) ∧
      (((1 : Int), (10 : Int)) ∈ [((1 : Int), (10 : Int)), (2, 20)])) ∧
    ((insertList 2 mkTree [(1, 10), (2, 20)]).search 1).1 = some 10 :=
  ⟨⟨by decide, by decide, by decide, by decide⟩,
    claim_C1 2 (by decide) [(1, 10), (2, 20)] [(1, 10), (2, 20)] [] (by decide)
      (by decide) 1 10 (by decide)⟩

/-- C3: after any sequence of inserts starting from a fresh tree, every node
reachable from the root has `key_count` at most `MAX_KEYS = 2 × ORDER` (and
`key_count` is a natural number, hence at least 0): no reachable node ever has
`key_count > MAX_KEYS`. -/
theorem claim_C3 (o : Nat) (hO : 1 ≤ o) (l : List (Int × Int)) :
    Node.countsOK o (insertList o mkTree l).root :=
  wf_countsOK _ (insertList_mkTree_inv hO l).1

theorem claim_C3_witness :
    (1 ≤ 2) ∧ Node.countsOK 2 (insertList 2 mkTree
      [(1, 10), (2, 20), (3, 30), (4, 40), (5, 50)]).root :=
  ⟨by decide, claim_C3 2 (by decide) [(1, 10), (2, 20), (3, 30), (4, 40), (5, 50)]⟩

/-- C7: every reachable state of the tree satisfies the ordering invariant: in
every reachable node the meaningful keys are non-decreasing, every key in the
subtree rooted at `children[i]` is `≤ keys[i]`, and every key in the subtree
rooted at `children[i+1]` is `≥ keys[i]` (ties allowed). -/
theorem claim_C7 (o : Nat) (hO : 1 ≤ o) (l : List (Int × Int)) :
    Node.ordOK (insertList o mkTree l).root :=
  wf_ordOK _ (insertList_mkTree_inv hO l).1

theorem claim_C7_witness :
    (1 ≤ 2) ∧ Node.ordOK (insertList 2 mkTree
      [(5, 50), (1, 10), (4, 40), (2, 20), (3, 30)]).root :=
  ⟨by decide, claim_C7 2 (by decide) [(5, 50), (1, 10), (4, 40), (2, 20), (3, 30)]⟩

/-- C5: when `splitChild` is invoked on a full child holding `MAX_KEYS` entries
(`mid = MAX_KEYS / 2`): the new sibling, linked at `children[idx+1]`, receives
the entries at indices `[mid+1, MAX_KEYS)` (count `MAX_KEYS - mid - 1`, plus
the child references `[mid+1, MAX_KEYS]` when the child is internal), the old
child keeps `key_count = mid`, the entry at index `mid` is promoted into parent
slot `idx`, and the parent's `key_count` grows by exactly one. -/
theorem claim_C5 (o : Nat) (lf : Bool) (es : List (Int × Int)) (ch : List Node)
    (idx off : Nat) (hch : ch.length = es.length + 1) (hidx : idx ≤ es.length)
    (hfull : (ch.getD idx emptyLeaf).keyCount = MAX_KEYS o) :
    ((splitChild o (.mk lf es ch) idx off).1.child.getD (idx + 1) emptyLeaf).entries
        = (ch.getD idx emptyLeaf).entries.drop (MAX_KEYS o / 2 + 1) ∧
    ((splitChild o (.mk lf es ch) idx off).1.child.getD (idx + 1) emptyLeaf).keyCount
        = MAX_KEYS o - (MAX_KEYS o / 2) - 1 ∧
    ((ch.getD idx emptyLeaf).leaf = false →
      ((splitChild o (.mk lf es ch) idx off).1.child.getD (idx + 1) emptyLeaf).child
        = (ch.getD idx emptyLeaf).child.drop (MAX_KEYS o / 2 + 1)) ∧
    ((splitChild o (.mk lf es ch) idx off).1.child.getD idx emptyLeaf).keyCount
        = MAX_KEYS o / 2 ∧
    (splitChild o (.mk lf es ch) idx off).1.entries.getD idx (0, 0)
        = (ch.getD idx emptyLeaf).entries.getD (MAX_KEYS o / 2) (0, 0) ∧
    (splitChild o (.mk lf es ch) idx off).1.keyCount = es.length + 1 := by
  have hidxch : idx < ch.length := by omega
  have hmidlen : MAX_KEYS o / 2 ≤ (ch.getD idx emptyLeaf).entries.length := by
    have h1 : MAX_KEYS o = o * 2 := rfl
    have h2 : MAX_KEYS o / 2 = o := MAX_KEYS_div2 o
    simp only [Node.keyCount] at hfull
    omega
  refine ⟨?_, ?_, ?_, ?_, ?_, ?_⟩
  · rw [splitChild_child_right hidxch]
    rfl
  · rw [splitChild_child_right hidxch]
    simp only [Node.keyCount_mk, List.length_drop]
    simp only [Node.keyCount] at hfull
    omega
  · intro hlf
    rw [splitChild_child_right hidxch, hlf]
    simp
  · rw [splitChild_child_left hidxch]
    simp only [Node.keyCount_mk, List.length_take]
    omega
  · rw [splitChild_mk]
    simp only [Node.entries_mk]
    have hlen : (es.take idx).length = idx := by simp; omega
    have h2 := getD_append_right_len (es.take idx)
      ((ch.getD idx emptyLeaf).entries.getD (MAX_KEYS o / 2) (0, 0) :: es.drop idx)
      (0, 0) idx 0 hlen
    simp only [Nat.add_zero] at h2
    rw [h2]
    simp
  · rw [splitChild_mk]
    simp only [Node.keyCount_mk, List.length_append, List.length_take, List.length_cons,
      List.length_drop]
    omega

theorem claim_C5_witness :
    ((([Node.mk true [(1, 10), (2, 20), (3, 30), (4, 40)] []] : List Node).length
        = ([] : List (Int × Int)).length + 1) ∧
      (0 ≤ ([] : List (Int × Int)).length) ∧
      ((([Node.mk true [(1, 10), (2, 20), (3, 30), (4, 40)] []] : List Node).getD 0
          emptyLeaf).keyCount = MAX_KEYS 2)) ∧
    (((splitChild 2 (.mk false []
        [Node.mk true [(1, 10), (2, 20), (3, 30), (4, 40)] []]) 0 7).1.child.getD 1
        emptyLeaf).entries
      = (([Node.mk true [(1, 10), (2, 20), (3, 30), (4, 40)] []] : List Node).getD 0
          emptyLeaf).entries.drop (MAX_KEYS 2 / 2 + 1) ∧
      (((splitChild 2 (.mk false []
        [Node.mk true [(1, 10), (2, 20), (3, 30), (4, 40)] []]) 0 7).1.child.getD 1
        emptyLeaf).keyCount = MAX_KEYS 2 - (MAX_KEYS 2 / 2) - 1) ∧
      ((([Node.mk true [(1, 10), (2, 20), (3, 30), (4, 40)] []] : List Node).getD 0
          emptyLeaf).leaf = false →
        (((splitChild 2 (.mk false []
          [Node.mk true [(1, 10), (2, 20), (3, 30), (4, 40)] []]) 0 7).1.child.getD 1
          emptyLeaf).child
          = (([Node.mk true [(1, 10), (2, 20), (3, 30), (4, 40)] []] : List Node).getD 0
              emptyLeaf).child.drop (MAX_KEYS 2 / 2 + 1))) ∧
      (((splitChild 2 (.mk false []
        [Node.mk true [(1, 10), (2, 20), (3, 30), (4, 40)] []]) 0 7).1.child.getD 0
        emptyLeaf).keyCount = MAX_KEYS 2 / 2) ∧
      ((splitChild 2 (.mk false []
        [Node.mk true [(1, 10), (2, 20), (3, 30), (4, 40)] []]) 0 7).1.entries.getD 0 (0, 0)
        = (([Node.mk true [(1, 10), (2, 20), (3, 30), (4, 40)] []] : List Node).getD 0
            emptyLeaf).entries.getD (MAX_KEYS 2 / 2) (0, 0)) ∧
      ((splitChild 2 (.mk false []
        [Node.mk true [(1, 10), (2, 20), (3, 30), (4, 40)] []]) 0 7).1.keyCount
        = ([] : List (Int × Int)).length + 1)) :=
  ⟨⟨by decide, by decide, by decide⟩,
    claim_C5 2 false [] [Node.mk true [(1, 10), (2, 20), (3, 30), (4, 40)] []] 0 7
      (by decide) (by decide) (by decide)⟩

/-- C2 (documenting the code bug): the source's `allocNode` advances the offset
and placement-news a node unconditionally — it contains no capacity check and
no `ArenaExhausted` failure path.  Concretely (offsets counted in nodes, so an
arena sized for exactly `K = 2` nodes has capacity 2): after the constructor
and four inserts the offset is 1; the fifth insert performs two further
allocations, the second of which starts at offset 2 = capacity and would have
to fail with `ArenaExhausted` under the claim (`offset + size > capacity`), yet
the code completes it, leaving the offset at 3 > 2, and all five keys are
searchable in memory beyond the arena's end. -/
theorem claim_C2 :
    (∀ (off : Nat) (lf : Bool), allocNode off lf = (Node.mk lf [] [], off + 1)) ∧
    (insertList 2 mkTree [(1, 10), (2, 20), (3, 30), (4, 40)]).arenaOffset = 1 ∧
    (insertList 2 mkTree [(1, 10), (2, 20), (3, 30), (4, 40), (5, 50)]).arenaOffset = 3 ∧
    ((insertList 2 mkTree [(1, 10), (2, 20), (3, 30), (4, 40), (5, 50)]).search 1).1
      = some 10 ∧
    ((insertList 2 mkTree [(1, 10), (2, 20), (3, 30), (4, 40), (5, 50)]).search 2).1
      = some 20 ∧
    ((insertList 2 mkTree [(1, 10), (2, 20), (3, 30), (4, 40), (5, 50)]).search 3).1
      = some 30 ∧
    ((insertList 2 mkTree [(1, 10), (2, 20), (3, 30), (4, 40), (5, 50)]).search 4).1
      = some 40 ∧
    ((insertList 2 mkTree [(1, 10), (2, 20), (3, 30), (4, 40), (5, 50)]).search 5).1
      = some 50 :=
  ⟨fun _ _ => rfl, by decide, by decide, by decide, by decide, by decide, by decide,
    by decide⟩

/-- C6: after any sequence of inserts from a fresh tree all leaves are at the
same depth from the root; and when the root is full, an insert increases the
tree height by exactly one, the state right after the root split holding the
previous root (with its `key_count` truncated to `mid` and, when internal, its
meaningful children truncated to `mid + 1`) as the first child of the new
root. -/
theorem claim_C6 (o : Nat) (hO : 1 ≤ o) (l : List (Int × Int)) (k v : Int) :
    (∀ d ∈ (insertList o mkTree l).root.leafDepths,
      d = (insertList o mkTree l).root.height) ∧
    ((insertList o mkTree l).root.full o = true →
      (insert o (insertList o mkTree l) k v).root.height
        = (insertList o mkTree l).root.height + 1 ∧
      (splitChild o (Node.mk false [] [(insertList o mkTree l).root]) 0
          ((insertList o mkTree l).arenaOffset + 1)).1.child.getD 0 emptyLeaf
        = Node.mk (insertList o mkTree l).root.leaf
            ((insertList o mkTree l).root.entries.take (MAX_KEYS o / 2))
            (if (insertList o mkTree l).root.leaf
              then (insertList o mkTree l).root.child
              else (insertList o mkTree l).root.child.take (MAX_KEYS o / 2 + 1))) := by
  obtain ⟨hwf, _, hbal⟩ := insertList_mkTree_inv hO l
  refine ⟨bal_leafDepths _ hwf hbal, ?_⟩
  intro hfull
  constructor
  · obtain ⟨_, _, _, hh⟩ := insert_main hO (insertList o mkTree l) k v hwf
    rw [hh, if_pos hfull]
  · have h := @splitChild_child_left o false [] [(insertList o mkTree l).root] 0
      ((insertList o mkTree l).arenaOffset + 1) (by simp)
    simpa using h

theorem claim_C6_witness :
    (1 ≤ 2) ∧
    ((∀ d ∈ (insertList 2 mkTree [(1, 10), (2, 20), (3, 30), (4, 40)]).root.leafDepths,
      d = (insertList 2 mkTree [(1, 10), (2, 20), (3, 30), (4, 40)]).root.height) ∧
    ((insertList 2 mkTree [(1, 10), (2, 20), (3, 30), (4, 40)]).root.full 2 = true →
      (insert 2 (insertList 2 mkTree [(1, 10), (2, 20), (3, 30), (4, 40)]) 5 50).root.height
        = (insertList 2 mkTree [(1, 10), (2, 20), (3, 30), (4, 40)]).root.height + 1 ∧
      (splitChild 2 (Node.mk false []
          [(insertList 2 mkTree [(1, 10), (2, 20), (3, 30), (4, 40)]).root]) 0
          ((insertList 2 mkTree [(1, 10), (2, 20), (3, 30), (4, 40)]).arenaOffset + 1)
        ).1.child.getD 0 emptyLeaf
        = Node.mk (insertList 2 mkTree [(1, 10), (2, 20), (3, 30), (4, 40)]).root.leaf
            ((insertList 2 mkTree
              [(1, 10), (2, 20), (3, 30), (4, 40)]).root.entries.take (MAX_KEYS 2 / 2))
            (if (insertList 2 mkTree [(1, 10), (2, 20), (3, 30), (4, 40)]).root.leaf
              then (insertList 2 mkTree [(1, 10), (2, 20), (3, 30), (4, 40)]).root.child
              else (insertList 2 mkTree
                [(1, 10), (2, 20), (3, 30), (4, 40)]).root.child.take
                  (MAX_KEYS 2 / 2 + 1)))) :=
  ⟨by decide, claim_C6 2 (by decide) [(1, 10), (2, 20), (3, 30), (4, 40)] 5 50⟩

/-- C8 (counterexample to the claim as stated): insert key 2 with value 10,
then key 2 again with value 20, then keys 1, 3, 4 (ORDER = 2).  The fifth
insert splits the full root `[1, 2↦10, 2↦20, 3]` and promotes its middle slot,
which holds the *later* duplicate `2 ↦ 20`; a subsequent `search(2)` therefore
returns 20 = `b`, not the earliest-inserted value 10 = `a`. -/
theorem claim_C8_counterexample :
    ((insertList 2 mkTree [(2, 10), (2, 20), (1, 5), (3, 30), (4, 40)]).search 2).1
        = some 20 ∧
    some (20 : Int) ≠ some (10 : Int) := by
  decide

/-- C8 (amended): if `k` is inserted with value `a` and later inserted again
with value `b` (with inserts of other keys anywhere around), a subsequent
`search(k)` returns the occupant of the matched slot, which is one of the two
values inserted for `k` — `a` or `b` — but not necessarily the
earliest-inserted one. -/
theorem claim_C8_amended (o : Nat) (hO : 1 ≤ o)
    (l1 l2 l3 : List (Int × Int)) (k a b : Int)
    (h1 : ∀ e ∈ l1, e.1 ≠ k) (h2 : ∀ e ∈ l2, e.1 ≠ k) (h3 : ∀ e ∈ l3, e.1 ≠ k) :
    ((insertList o mkTree (l1 ++ [(k, a)] ++ l2 ++ [(k, b)] ++ l3)).search k).1 = some a ∨
    ((insertList o mkTree (l1 ++ [(k, a)] ++ l2 ++ [(k, b)] ++ l3)).search k).1
      = some b := by
  obtain ⟨hwf, hent, _⟩ :=
    insertList_mkTree_inv hO (l1 ++ [(k, a)] ++ l2 ++ [(k, b)] ++ l3)
  have hmem : (k, a) ∈ (insertList o mkTree
      (l1 ++ [(k, a)] ++ l2 ++ [(k, b)] ++ l3)).root.entMS := by
    rw [hent]
    refine Multiset.mem_coe.mpr ?_
    simp
  obtain ⟨v', hs', hm'⟩ := search_complete _ hwf hmem
  have hm'' : (k, v') ∈ l1 ++ [(k, a)] ++ l2 ++ [(k, b)] ++ l3 := by
    rw [hent] at hm'
    exact Multiset.mem_coe.mp hm'
  rw [Tree.search_fst, hs']
  simp only [List.mem_append, List.mem_singleton] at hm''
  rcases hm'' with ((((hx | hx) | hx) | hx) | hx)
  · exact absurd rfl (h1 _ hx)
  · left
    injection hx with _ hv
    rw [hv]
  · exact absurd rfl (h2 _ hx)
  · right
    injection hx with _ hv
    rw [hv]
  · exact absurd rfl (h3 _ hx)

theorem claim_C8_amended_witness :
    ((1 ≤ 2) ∧
      (∀ e ∈ ([] : List (Int × Int)), e.1 ≠ 7) ∧
      (∀ e ∈ ([(9, 90)] : List (Int × Int)), e.1 ≠ 7) ∧
      (∀ e ∈ ([] : List (Int × Int)), e.1 ≠ 7)) ∧
    (((insertList 2 mkTree ([] ++ [(7, 1)] ++ [(9, 90)] ++ [(7, 2)] ++ [])).search 7).1
        = some 1 ∨
      ((insertList 2 mkTree ([] ++ [(7, 1)] ++ [(9, 90)] ++ [(7, 2)] ++ [])).search 7).1
        = some 2) :=
  ⟨⟨by decide, by decide, by decide, by decide⟩,
    claim_C8_amended 2 (by decide) [] [(9, 90)] [] 7 1 2 (by decide) (by decide)
      (by decide)⟩

/-- C9: with ORDER = 2 (`MAX_KEYS = 4`), inserting keys 1, 2, 3, 4 into an
empty tree yields a single leaf root with keys `[1, 2, 3, 4]`; inserting 5 then
splits the root so that the new root holds key `[3]` with children holding
`[1, 2]` and `[4, 5]`; afterwards `search(5)` returns the value inserted with
key 5 and `search(3)` returns the value stored at the root. -/
theorem claim_C9 :
    (insertList 2 mkTree [(1, 10), (2, 20), (3, 30), (4, 40)]).root.leaf = true ∧
    (insertList 2 mkTree [(1, 10), (2, 20), (3, 30), (4, 40)]).root.keys
      = [1, 2, 3, 4] ∧
    (insert 2 (insertList 2 mkTree [(1, 10), (2, 20), (3, 30), (4, 40)]) 5 50).root.keys
      = [3] ∧
    ((insert 2 (insertList 2 mkTree
      [(1, 10), (2, 20), (3, 30), (4, 40)]) 5 50).root.child.getD 0 emptyLeaf).keys
      = [1, 2] ∧
    ((insert 2 (insertList 2 mkTree
      [(1, 10), (2, 20), (3, 30), (4, 40)]) 5 50).root.child.getD 1 emptyLeaf).keys
      = [4, 5] ∧
    ((insert 2 (insertList 2 mkTree
      [(1, 10), (2, 20), (3, 30), (4, 40)]) 5 50).search 5).1 = some 50 ∧
    ((insert 2 (insertList 2 mkTree
      [(1, 10), (2, 20), (3, 30), (4, 40)]) 5 50).search 3).1
      = some ((insert 2 (insertList 2 mkTree
          [(1, 10), (2, 20), (3, 30), (4, 40)]) 5 50).root.vals.getD 0 0) := by
  decide

/-- C10: `search` never mutates the tree: the state returned alongside the
lookup result is the very state the operation started from (root, arena offset,
and hence every node's leaf flag, `key_count`, keys, values and children), and
the result is a pure function of that state. -/
theorem claim_C10 (t : Tree) (k : Int) :
    (t.search k).2 = t ∧ (t.search k).1 = Node.search k t.root := by
  rw [Tree.search, searchLoopGo_frame]
  exact ⟨rfl, rfl⟩

end HFTBTree
